import Mathlib

/-!
Verification development for the transformer decoder in llama/model.py.

Tensors are shallowly embedded as total functions from natural-number
indices to real numbers; the valid index ranges (tensor shapes) appear as
the explicit summation bounds of each operation, taken from the shapes in
the source.  Floating-point arithmetic is idealised as exact real
arithmetic; the float value negative infinity produced by the causal mask
is modelled by the bottom element of EReal, with the IEEE fact
exp(-inf) = 0 reflected in the function expE below.

The model-parallel layers (ParallelEmbedding, ColumnParallelLinear,
RowParallelLinear) are imported by model.py from xla_model_parallel.py,
which is not part of the available sources.  Following the specification
(sections 4.1 and 4.2: the gathered or reduced sharded result equals the
unsharded single-worker computation), they are modelled as plain linear
maps and a plain embedding lookup, i.e. the world-size-one instance.
-/

noncomputable section

namespace LlamaSpec

/-- Feature vectors: a tensor axis embedded as a function from index to value. -/
abbrev Vec := ℕ → ℝ

/-- Weight matrices, indexed (output row, input column). -/
abbrev Mat := ℕ → ℕ → ℝ

/-- KV cache buffers, indexed (batch, sequence position, kv head, head dim),
mirroring the shape (max_batch_size, max_seq_len, n_local_kv_heads, head_dim)
allocated in Attention.__init__. -/
abbrev Cache := ℕ → ℕ → ℕ → ℕ → ℝ

/-- Application of a (column- or row-) parallel linear layer at world size one.
Modelled from the spec: ColumnParallelLinear / RowParallelLinear live in the
missing xla_model_parallel.py; per spec section 4.1 the gathered (column) or
all-reduced (row) output equals the unsharded matrix product, which is what
this function computes over the given input dimension. -/
def linApply (w : Mat) (inDim : ℕ) (x : Vec) : Vec :=
  fun o => ∑ k ∈ Finset.range inDim, w o k * x k

/-- ModelArgs from model.py, with the same defaults.  Float fields are
idealised: norm_eps as a real, ffn_dim_multiplier as a rational. -/
structure ModelArgs where
  dim : ℕ := 4096
  n_layers : ℕ := 32
  n_heads : ℕ := 32
  n_kv_heads : Option ℕ := none
  vocab_size : ℤ := -1
  multiple_of : ℕ := 256
  ffn_dim_multiplier : Option ℚ := none
  norm_eps : ℝ := 1e-5
  max_batch_size : ℕ := 32
  max_seq_len : ℕ := 2048
  quant : Bool := false
  gpu : Bool := false

/-- Effective number of key/value heads: args.n_heads if args.n_kv_heads is None
else args.n_kv_heads (model.py line 114). -/
def nKVHeads (a : ModelArgs) : ℕ := a.n_kv_heads.getD a.n_heads

/-- Head dimension: args.dim // args.n_heads (model.py line 119). -/
def headDim (a : ModelArgs) : ℕ := a.dim / a.n_heads

/-- Query-head repetition factor at world size one:
n_local_heads // n_local_kv_heads (model.py line 118). -/
def nRep (a : ModelArgs) : ℕ := a.n_heads / nKVHeads a

/-- Reciprocal square root, torch.rsqrt. -/
def rsqrt (x : ℝ) : ℝ := 1 / Real.sqrt x

/-- RMSNorm.forward: x * rsqrt(mean(x^2, last axis) + eps), times the learned
scale (model.py lines 46-51); the float() / type_as casts are identities in
the real-number model. -/
def rmsnorm (dim : ℕ) (eps : ℝ) (w : Vec) (x : Vec) : Vec :=
  fun d => (x d * rsqrt ((∑ k ∈ Finset.range dim, x k ^ 2) / dim + eps)) * w d

/-- Logistic sigmoid, torch.sigmoid. -/
def sigmoid (z : ℝ) : ℝ := 1 / (1 + Real.exp (-z))

/-- F.silu: z * sigmoid z. -/
def silu (z : ℝ) : ℝ := z * sigmoid z

/-- Python's int() applied to an exact rational: truncation toward zero. -/
def pythonInt (q : ℚ) : ℤ := if 0 ≤ q then ⌊q⌋ else -⌊-q⌋

/-- Hidden dimension computed by FeedForward.__init__ (model.py lines 242-246)
from the hidden_dim argument (the caller passes 4*dim):
hidden_dim = int(2 * hidden_dim / 3); if ffn_dim_multiplier is not None:
hidden_dim = int(ffn_dim_multiplier * hidden_dim);
hidden_dim = multiple_of * ((hidden_dim + multiple_of - 1) // multiple_of).
Python float division is idealised as exact rational division and // is
floor division (Int.fdiv). -/
def ffnHiddenDim (hidden : ℤ) (multiple_of : ℕ) (m : Option ℚ) : ℤ :=
  let h1 : ℤ := pythonInt (2 * (hidden : ℚ) / 3)
  let h2 : ℤ := match m with
    | none => h1
    | some mult => pythonInt (mult * (h1 : ℚ))
  (multiple_of : ℤ) * Int.fdiv (h2 + multiple_of - 1) multiple_of

/-- Hidden dimension of the FeedForward block of a TransformerBlock, which
passes hidden_dim = 4 * args.dim (model.py line 321). -/
def ffnHiddenNat (a : ModelArgs) : ℕ :=
  (ffnHiddenDim (4 * a.dim) a.multiple_of a.ffn_dim_multiplier).toNat

/-- Weights of a FeedForward block. -/
structure FFNWeights where
  w1 : Mat
  w2 : Mat
  w3 : Mat

/-- FeedForward.forward: w2(silu(w1 x) * w3 x) (model.py line 293), per
position. -/
def ffnForward (dim hidden : ℕ) (w : FFNWeights) (x : Vec) : Vec :=
  linApply w.w2 hidden
    (fun k => silu (linApply w.w1 dim x k) * linApply w.w3 dim x k)

/-- Rotary frequency i of precompute_freqs_cis (model.py line 55):
1 / theta ^ (2*i / dim) with theta = 10000. -/
def ropeFreq (hd i : ℕ) : ℝ := 1 / (10000 : ℝ) ^ ((2 * i : ℝ) / (hd : ℝ))

/-- Entry (pos, i) of the freqs_cis table (model.py lines 54-59):
torch.polar(1, pos * freq i), the unit complex number of angle
pos * ropeFreq hd i. -/
def freqsCisTable (hd : ℕ) (pos i : ℕ) : ℂ :=
  Complex.exp ((((pos : ℝ) * ropeFreq hd i : ℝ) : ℂ) * Complex.I)

/-- View of the last axis of a head vector as complex pairs, matching
torch.view_as_complex on (..., head_dim/2, 2) (model.py lines 75-80). -/
def vecC (x : Vec) (i : ℕ) : ℂ := ⟨x (2 * i), x (2 * i + 1)⟩

/-- Rotary application to one head vector with one row c of rotation
coefficients: complex-multiply each adjacent pair by c, then view back as
reals (apply_rotary_emb, model.py lines 70-87). -/
def applyRotaryRow (c : ℕ → ℂ) (x : Vec) : Vec :=
  fun d =>
    if d % 2 = 0 then (vecC x (d / 2) * c (d / 2)).re
    else (vecC x (d / 2) * c (d / 2)).im

/-- Grouped-query expansion, repeat_kv (model.py lines 90-99): expanded head
h reads kv head h / n_rep (contiguous grouping from the expand + reshape). -/
def repeatKV (x : Cache) (nrep : ℕ) : Cache :=
  if nrep = 1 then x else fun b s h d => x b s (h / nrep) d

/-- Overwrite one sequence position of a cache with a (batch, head, dim) slab. -/
def writeOne (c : Cache) (p : ℕ) (row : ℕ → ℕ → ℕ → ℝ) : Cache :=
  fun b q h d => if q = p then row b h d else c b q h d

/-- Sequential realisation of Tensor.index_copy along dim 1: write the source
rows n, n+1, ... at the listed positions in order (on duplicate positions the
last write wins). -/
def indexCopyAux (src : ℕ → ℕ → ℕ → ℕ → ℝ) : List ℕ → ℕ → Cache → Cache
  | [], _, c => c
  | p :: rest, n, c =>
      indexCopyAux src rest (n + 1) (writeOne c p (fun b h d => src b n h d))

/-- Tensor.index_copy(1, idx, src) as used on the KV caches
(model.py lines 207-208). -/
def indexCopy (c : Cache) (idx : List ℕ) (src : ℕ → ℕ → ℕ → ℕ → ℝ) : Cache :=
  indexCopyAux src idx 0 c

open Classical

/-- Exponential extended to EReal scores, reflecting IEEE exp at the values
the attention produces: exp(-inf) = 0 and exp(r) for finite r.  (The top
element never arises: every score is a finite real plus a mask entry that is
either 0 or bottom.) -/
def expE (x : EReal) : ℝ := if x = ⊥ then 0 else Real.exp x.toReal

/-- Entry (i, j) of the precomputed causal mask built in Transformer.__init__
(model.py lines 403-406): torch.triu of an all-(-inf) matrix with diagonal=1,
hence -inf (bottom) strictly above the diagonal and 0 elsewhere. -/
def maskInit (i j : ℕ) : EReal := if i + 1 ≤ j then ⊥ else 0

/-- Weights of one Attention module (the wq/wk/wv/wo parallel linear layers
at world size one). -/
structure AttnWeights where
  wq : Mat
  wk : Mat
  wv : Mat
  wo : Mat

/-- Query projection of one input row, viewed as (head, head_dim)
(model.py lines 199-201). -/
def attnXq (a : ModelArgs) (w : AttnWeights) (xr : Vec) (h : ℕ) : Vec :=
  fun d => linApply w.wq a.dim xr (h * headDim a + d)

/-- Key projection of one input row, viewed as (kv head, head_dim). -/
def attnXk (a : ModelArgs) (w : AttnWeights) (xr : Vec) (h : ℕ) : Vec :=
  fun d => linApply w.wk a.dim xr (h * headDim a + d)

/-- Value projection of one input row, viewed as (kv head, head_dim);
values are not rotated (model.py line 205 rotates xq and xk only). -/
def attnXv (a : ModelArgs) (w : AttnWeights) (xr : Vec) (h : ℕ) : Vec :=
  fun d => linApply w.wv a.dim xr (h * headDim a + d)

/-- Rotated query of one input row: apply_rotary_emb on the query projection
with the rotation row c (the freqs_cis slice row for this position). -/
def attnQrot (a : ModelArgs) (w : AttnWeights) (xr : Vec) (c : ℕ → ℂ) (h : ℕ) : Vec :=
  applyRotaryRow c (attnXq a w xr h)

/-- Rotated key of one input row. -/
def attnKrot (a : ModelArgs) (w : AttnWeights) (xr : Vec) (c : ℕ → ℂ) (h : ℕ) : Vec :=
  applyRotaryRow c (attnXk a w xr h)

/-- Raw attention score of query row xr (rotated with c) against cache
position j for head h: dot product over head_dim, scaled by 1/sqrt(head_dim),
the cache expanded by repeat_kv (model.py lines 210-220). -/
def attnScoresRow (a : ModelArgs) (w : AttnWeights) (xr : Vec) (c : ℕ → ℂ)
    (keys : Cache) (b h j : ℕ) : ℝ :=
  (∑ d ∈ Finset.range (headDim a),
      attnQrot a w xr c h d * repeatKV keys (nRep a) b j h d)
    / Real.sqrt (headDim a)

/-- Masked score: scores + mask (model.py line 221), with m the mask row of
this query position over the full key axis. -/
def attnScoresMRow (a : ModelArgs) (w : AttnWeights) (xr : Vec) (c : ℕ → ℂ)
    (keys : Cache) (m : ℕ → EReal) (b h j : ℕ) : EReal :=
  (attnScoresRow a w xr c keys b h j : ℝ) + m j

/-- Softmax denominator over the full key axis of length max_seq_len
(model.py line 222: softmax over the last axis of the full-cache scores). -/
def attnDenom (a : ModelArgs) (w : AttnWeights) (xr : Vec) (c : ℕ → ℂ)
    (keys : Cache) (m : ℕ → EReal) (b h : ℕ) : ℝ :=
  ∑ j ∈ Finset.range a.max_seq_len, expE (attnScoresMRow a w xr c keys m b h j)

/-- Post-softmax attention weight given to cache position j. -/
def attnSoftmaxRow (a : ModelArgs) (w : AttnWeights) (xr : Vec) (c : ℕ → ℂ)
    (keys : Cache) (m : ℕ → EReal) (b h j : ℕ) : ℝ :=
  expE (attnScoresMRow a w xr c keys m b h j) / attnDenom a w xr c keys m b h

/-- Attention output for one query row, heads merged back into one vector of
length n_heads * head_dim (model.py lines 223-224): entry e belongs to head
e / head_dim, coordinate e % head_dim. -/
def attnOutRow (a : ModelArgs) (w : AttnWeights) (xr : Vec) (c : ℕ → ℂ)
    (keys values : Cache) (m : ℕ → EReal) (b : ℕ) : Vec :=
  fun e =>
    ∑ j ∈ Finset.range a.max_seq_len,
      attnSoftmaxRow a w xr c keys m b (e / headDim a) j *
        repeatKV values (nRep a) b j (e / headDim a) (e % headDim a)

/-- Attention.forward (model.py lines 191-225): project, rotate, write this
call's keys/values into the caches at the positions in idx (index_copy),
read back the entire caches, compute masked softmax attention, merge heads
and apply the output projection.  Returns the output rows together with the
updated caches. -/
def Attention.forward (a : ModelArgs) (w : AttnWeights) (cK cV : Cache)
    (x : ℕ → ℕ → Vec) (freqs : ℕ → ℕ → ℂ) (mask : ℕ → ℕ → EReal)
    (idx : List ℕ) : (ℕ → ℕ → Vec) × Cache × Cache :=
  let cK2 := indexCopy cK idx (fun b i h d => attnKrot a w (x b i) (freqs i) h d)
  let cV2 := indexCopy cV idx (fun b i h d => attnXv a w (x b i) h d)
  (fun b s => linApply w.wo (a.n_heads * headDim a)
      (attnOutRow a w (x b s) (freqs s) cK2 cV2 (mask s) b),
   cK2, cV2)

/-- Weights of one TransformerBlock. -/
structure LayerWeights where
  attn : AttnWeights
  ffn : FFNWeights
  attention_norm : Vec
  ffn_norm : Vec

/-- One TransformerBlock together with its mutable KV caches (the caches are
buffers of the Attention module it owns). -/
structure LayerState where
  w : LayerWeights
  cacheK : Cache
  cacheV : Cache

/-- TransformerBlock.forward (model.py lines 334-345):
h = x + attention(attention_norm(x)); out = h + feed_forward(ffn_norm(h)),
returning the updated layer state alongside the output. -/
def TransformerBlock.forward (a : ModelArgs) (l : LayerState) (x : ℕ → ℕ → Vec)
    (freqs : ℕ → ℕ → ℂ) (mask : ℕ → ℕ → EReal) (idx : List ℕ) :
    (ℕ → ℕ → Vec) × LayerState :=
  let r := Attention.forward a l.w.attn l.cacheK l.cacheV
    (fun b s => rmsnorm a.dim a.norm_eps l.w.attention_norm (x b s)) freqs mask idx
  let h : ℕ → ℕ → Vec := fun b s d => x b s d + r.1 b s d
  (fun b s d => h b s d +
      ffnForward a.dim (ffnHiddenNat a) l.w.ffn
        (rmsnorm a.dim a.norm_eps l.w.ffn_norm (h b s)) d,
   { l with cacheK := r.2.1, cacheV := r.2.2 })

/-- Sequential run of the layer stack (the for-loop of Transformer.forward,
model.py lines 418-419), threading the hidden state and the per-layer caches. -/
def runLayers (a : ModelArgs) : List LayerState → (ℕ → ℕ → Vec) →
    (ℕ → ℕ → ℂ) → (ℕ → ℕ → EReal) → List ℕ → (ℕ → ℕ → Vec) × List LayerState
  | [], h, _, _, _ => (h, [])
  | l :: rest, h, freqs, mask, idx =>
      let r := TransformerBlock.forward a l h freqs mask idx
      let r2 := runLayers a rest r.1 freqs mask idx
      (r2.1, r.2 :: r2.2)

/-- Logits returned by Transformer.forward: a (batch, vocab) tensor when a
single output_index was selected (after squeeze(dim=1)), otherwise a
(batch, window, vocab) tensor. -/
inductive Logits where
  | single (v : ℕ → Vec)
  | full (v : ℕ → ℕ → Vec)

/-- Whole mutable state of a Transformer module: parameters, weights, the
registered buffers freqs_cis and mask, and the per-layer KV caches. -/
structure TransformerState where
  params : ModelArgs
  tok_embeddings : ℕ → Vec
  layers : List LayerState
  normW : Vec
  outputW : Mat
  freqs_cis : ℕ → ℕ → ℂ
  mask : ℕ → ℕ → EReal

/-- The all-zero cache buffer, torch.zeros of shape
(max_batch_size, max_seq_len, n_local_kv_heads, head_dim)
(model.py lines 172-189). -/
def zeroCache : Cache := fun _ _ _ _ => 0

/-- Weight values for constructing a Transformer (the checkpoint contents;
construction in model.py initialises parameter tensors whose values are
later loaded externally). -/
structure TransformerWeights where
  tok_embeddings : ℕ → Vec
  layers : List LayerWeights
  normW : Vec
  outputW : Mat

/-- Default (all-zero) layer weights, used to pad a too-short weight list. -/
def defaultLW : LayerWeights :=
  { attn := ⟨fun _ _ => 0, fun _ _ => 0, fun _ _ => 0, fun _ _ => 0⟩,
    ffn := ⟨fun _ _ => 0, fun _ _ => 0, fun _ _ => 0⟩,
    attention_norm := fun _ => 0,
    ffn_norm := fun _ => 0 }

/-- State produced by a successful Transformer.__init__
(model.py lines 348-407): n_layers blocks with freshly zero-filled caches,
the freqs_cis table precomputed for dim // n_heads and max_seq_len * 2
positions, and the causal mask buffer. -/
def Transformer.mkState (a : ModelArgs) (w : TransformerWeights) : TransformerState :=
  { params := a,
    tok_embeddings := w.tok_embeddings,
    layers := (List.range a.n_layers).map
      (fun i => { w := w.layers.getD i defaultLW,
                  cacheK := zeroCache, cacheV := zeroCache }),
    normW := w.normW,
    outputW := w.outputW,
    freqs_cis := freqsCisTable (headDim a),
    mask := maskInit }

/-- Conditions under which Transformer construction succeeds at world size ws.
From the available source: the fairscale divide_and_check_no_remainder calls
on the head counts (model.py lines 116-117, whose modulus also needs a
nonzero worker count), and the divisions construction itself performs —
head_dim and the rotary table's dimension need n_heads nonzero (lines 119,
306, 399), and each TransformerBlock needs n_local_kv_heads nonzero for
n_rep (line 118) and multiple_of nonzero for the hidden-size rounding
(line 246), all raising ZeroDivisionError otherwise, the per-layer ones only
when at least one layer is built.  Modelled from the spec for the layers
from the missing xla_model_parallel.py: every globally sized dimension
handed to a sharded layer must divide evenly by the worker count (spec
section 4.1), and tensor allocation requires a nonnegative vocabulary size
(ParallelEmbedding and the output ColumnParallelLinear allocate vocab-sized
tensors). -/
abbrev constructOk (a : ModelArgs) (ws : ℕ) : Prop :=
  0 ≤ a.vocab_size ∧
  a.dim % ws = 0 ∧
  a.n_heads % ws = 0 ∧
  nKVHeads a % ws = 0 ∧
  (a.n_heads * headDim a) % ws = 0 ∧
  (nKVHeads a * headDim a) % ws = 0 ∧
  ffnHiddenNat a % ws = 0 ∧
  a.vocab_size.toNat % ws = 0 ∧
  0 < ws ∧
  0 < a.n_heads ∧
  (a.n_layers ≠ 0 → 0 < nKVHeads a / ws) ∧
  (a.n_layers ≠ 0 → 0 < a.multiple_of)

/-- Transformer.__init__: returns the fresh state if the construction-time
checks pass, and fails fatally otherwise. -/
def Transformer.construct (a : ModelArgs) (ws : ℕ) (w : TransformerWeights) :
    Option TransformerState :=
  if constructOk a ws then some (Transformer.mkState a w) else none

/-- Transformer.forward (model.py lines 409-424).  The token matrix has shape
(bsz, seqlen); the assert on line 412 demands bsz = max_batch_size, modelled
by returning none (a fatal failure) otherwise.  freqs_cis and mask rows are
selected by index_select at the absolute positions in input_indexes; when an
output_index is supplied, only the hidden row at window offset
output_index - input_indexes[0] is projected (torch raises on an
out-of-window selection; the embedding leaves that case unconstrained). -/
def Transformer.forward (st : TransformerState) (bsz _seqlen : ℕ)
    (tokens : ℕ → ℕ → ℕ) (input_indexes : List ℕ)
    (output_index : Option ℕ) : Option (Logits × TransformerState) :=
  if bsz = st.params.max_batch_size then
    let a := st.params
    let r := runLayers a st.layers
      (fun b s => st.tok_embeddings (tokens b s))
      (fun s i => st.freqs_cis (input_indexes.getD s 0) i)
      (fun s j => st.mask (input_indexes.getD s 0) j)
      input_indexes
    let hn := fun b s => rmsnorm a.dim a.norm_eps st.normW (r.1 b s)
    let st2 := { st with layers := r.2 }
    match output_index with
    | some o =>
        some (Logits.single
          (fun b => linApply st.outputW a.dim (hn b (o - input_indexes.getD 0 0))),
          st2)
    | none =>
        some (Logits.full (fun b s => linApply st.outputW a.dim (hn b s)), st2)
  else none

/-- Incremental decoding driver: one Transformer.forward call per position,
feeding token column i with input_indexes = [ps_i] and no output_index,
collecting each call's (batch, vocab) logits row at window offset 0. -/
def seqRun (tokens : ℕ → ℕ → ℕ) : ℕ → List ℕ → TransformerState →
    Option (List (ℕ → Vec) × TransformerState)
  | _, [], st => some ([], st)
  | i, p :: rest, st =>
      match Transformer.forward st st.params.max_batch_size 1
          (fun b _ => tokens b i) [p] none with
      | some (Logits.full v, st2) =>
          match seqRun tokens (i + 1) rest st2 with
          | some (ls, stF) => some ((fun b => v b 0) :: ls, stF)
          | none => none
      | _ => none

/-! Concrete instances used by the witnesses below. -/

/-- All-zero weight bundle. -/
def zeroTW : TransformerWeights :=
  { tok_embeddings := fun _ _ => 0,
    layers := [defaultLW],
    normW := fun _ => 0,
    outputW := fun _ _ => 0 }

/-- A tiny configuration: one layer, one head, head_dim 2, two cache slots,
batch size one. -/
def testArgs : ModelArgs :=
  { dim := 2, n_layers := 1, n_heads := 1, n_kv_heads := none, vocab_size := 2,
    multiple_of := 1, ffn_dim_multiplier := none, norm_eps := 1,
    max_batch_size := 1, max_seq_len := 2, quant := false, gpu := false }

/-- Freshly constructed Transformer state on testArgs. -/
def testState : TransformerState := Transformer.mkState testArgs zeroTW

/-- Hidden-dimension procedure as the specification words it: with round in
place of the source's int() truncation.  Written from the claim, to be
compared with ffnHiddenDim, which is written from the source. -/
def ffnHiddenDimSpec (hidden : ℤ) (multiple_of : ℕ) (m : Option ℚ) : ℤ :=
  let h1 : ℤ := round (2 * (hidden : ℚ) / 3)
  let h2 : ℤ := match m with
    | none => h1
    | some mult => round (mult * (h1 : ℚ))
  (multiple_of : ℤ) * Int.fdiv (h2 + multiple_of - 1) multiple_of

/-- Configuration whose embedding dimension 3 is not divisible by its head
count 2, on which construction nevertheless succeeds. -/
def cArgsC9 : ModelArgs :=
  { dim := 3, n_layers := 1, n_heads := 2, n_kv_heads := none, vocab_size := 16,
    multiple_of := 1, ffn_dim_multiplier := none, norm_eps := 1,
    max_batch_size := 1, max_seq_len := 4, quant := false, gpu := false }

/-- Configuration violating every invariant of claim C9 at once — dim 4 not
divisible by 3 heads, 3 heads not divisible by 2 kv heads, vocabulary size 0
not positive — on which construction nevertheless succeeds. -/
def cArgsC9b : ModelArgs :=
  { dim := 4, n_layers := 1, n_heads := 3, n_kv_heads := some 2, vocab_size := 0,
    multiple_of := 1, ffn_dim_multiplier := none, norm_eps := 1,
    max_batch_size := 1, max_seq_len := 4, quant := false, gpu := false }

/-! Concrete data for the causal-mask and cache-participation claims. -/

/-- All-zero attention weights. -/
def zeroAW : AttnWeights := defaultLW.attn

/-! Claim C3.  The softmax denominator of the source runs over the entire
key axis of the cache (all max_seq_len positions), not over the positions
written so far; a computation restricted to a chosen set of key positions is
defined next, written from the claim's words, for comparison. -/

/-- Softmax denominator restricted to the key positions in S (the claim's
reading: only written positions enter the score computation). -/
def attnDenomOn (S : Finset ℕ) (a : ModelArgs) (w : AttnWeights) (xr : Vec)
    (c : ℕ → ℂ) (keys : Cache) (m : ℕ → EReal) (b h : ℕ) : ℝ :=
  ∑ j ∈ S, expE (attnScoresMRow a w xr c keys m b h j)

/-- Post-softmax weight with the key axis restricted to S. -/
def attnSoftmaxRowOn (S : Finset ℕ) (a : ModelArgs) (w : AttnWeights) (xr : Vec)
    (c : ℕ → ℂ) (keys : Cache) (m : ℕ → EReal) (b h j : ℕ) : ℝ :=
  expE (attnScoresMRow a w xr c keys m b h j) / attnDenomOn S a w xr c keys m b h

/-- Attention output with both the softmax and the value sum restricted to the
key positions in S. -/
def attnOutRowOn (S : Finset ℕ) (a : ModelArgs) (w : AttnWeights) (xr : Vec)
    (c : ℕ → ℂ) (keys values : Cache) (m : ℕ → EReal) (b : ℕ) : Vec :=
  fun e =>
    ∑ j ∈ S,
      attnSoftmaxRowOn S a w xr c keys m b (e / headDim a) j *
        repeatKV values (nRep a) b j (e / headDim a) (e % headDim a)

/-- Identity matrix. -/
def idMat : Mat := fun o k => if o = k then 1 else 0

/-- Attention weights for the C3 counterexample: zero query and key
projections, identity value and output projections. -/
def cW3 : AttnWeights :=
  { wq := fun _ _ => 0, wk := fun _ _ => 0, wv := idMat, wo := idMat }

/-- Input rows for the C3 counterexample: every position holds (1, 0). -/
def xC3 : ℕ → ℕ → Vec := fun _ _ d => if d = 0 then 1 else 0

/-- Rotation rows for the C3 counterexample. -/
def fC3 : ℕ → ℕ → ℂ := fun _ _ => 1

/-- Mask rows for the C3 counterexample: the single query has absolute
position 1 (the mask slice a forward call with input_indexes = [1] selects). -/
def mC3 : ℕ → ℕ → EReal := fun _ j => maskInit 1 j

/-- Result of one Attention.forward call on fresh caches writing position 1
only, in the C3 counterexample configuration. -/
def fwdC3 : (ℕ → ℕ → Vec) × Cache × Cache :=
  Attention.forward testArgs cW3 zeroCache zeroCache xC3 fC3 mC3 [1]

/-! Infrastructure for claim C1 (incremental-decode equivalence). -/

/-- Rotation rows selected for a window: row s is the table row for the s-th
absolute position in input_indexes (the index_select on line 414). -/
def oneFreqs (F : ℕ → ℕ → ℂ) (ps : List ℕ) : ℕ → ℕ → ℂ :=
  fun s i => F (ps.getD s 0) i

/-- Causal-mask rows selected for a window: row s is the mask row of the s-th
absolute position in input_indexes (the index_select on line 416). -/
def oneMaskI (ps : List ℕ) : ℕ → ℕ → EReal :=
  fun s j => maskInit (ps.getD s 0) j

/-- Rotation rows of a single-position call. -/
def callFreqs (F : ℕ → ℕ → ℂ) (p : ℕ) : ℕ → ℕ → ℂ := oneFreqs F [p]

/-- Mask rows of a single-position call. -/
def callMask (p : ℕ) : ℕ → ℕ → EReal := oneMaskI [p]

/-- Cache contents after writing source rows 0..k-1 one call at a time: call
m overwrites position ps_m with source row m, starting from the zero-filled
cache. -/
def seqWrites (src : ℕ → ℕ → ℕ → ℕ → ℝ) (ps : List ℕ) : ℕ → Cache
  | 0 => zeroCache
  | i + 1 => indexCopy (seqWrites src ps i) [ps.getD i 0]
      (fun b _ h d => src b i h d)

/-- Key rows the one-call run writes: row j is the rotated key of the normed
hidden row j, rotated with the table row of absolute position ps_j. -/
def srcKOne (a : ModelArgs) (lw : LayerWeights) (F : ℕ → ℕ → ℂ) (ps : List ℕ)
    (H : ℕ → ℕ → Vec) : ℕ → ℕ → ℕ → ℕ → ℝ :=
  fun b j h d =>
    attnKrot a lw.attn (rmsnorm a.dim a.norm_eps lw.attention_norm (H b j))
      (oneFreqs F ps j) h d

/-- Value rows the one-call run writes (values are not rotated). -/
def srcVOne (a : ModelArgs) (lw : LayerWeights) (H : ℕ → ℕ → Vec) :
    ℕ → ℕ → ℕ → ℕ → ℝ :=
  fun b j h d =>
    attnXv a lw.attn (rmsnorm a.dim a.norm_eps lw.attention_norm (H b j)) h d

/-- Layer states of the incremental run after i single-position calls, the
i-th call feeding hidden G i with input_indexes = [ps_i]. -/
def seqLS (a : ModelArgs) (F : ℕ → ℕ → ℂ) (ps : List ℕ)
    (G : ℕ → ℕ → ℕ → Vec) (ls : List LayerState) : ℕ → List LayerState
  | 0 => ls
  | i + 1 =>
      (runLayers a (seqLS a F ps G ls i) (G i) (callFreqs F (ps.getD i 0))
        (callMask (ps.getD i 0)) [ps.getD i 0]).2

/-- Hidden output of the i-th single-position call of the incremental run. -/
def seqHout (a : ModelArgs) (F : ℕ → ℕ → ℂ) (ps : List ℕ)
    (G : ℕ → ℕ → ℕ → Vec) (ls : List LayerState) (i : ℕ) : ℕ → ℕ → Vec :=
  (runLayers a (seqLS a F ps G ls i) (G i) (callFreqs F (ps.getD i 0))
    (callMask (ps.getD i 0)) [ps.getD i 0]).1

/-- State of the first layer of the stack along the incremental run. -/
def headLS (a : ModelArgs) (F : ℕ → ℕ → ℂ) (ps : List ℕ)
    (G : ℕ → ℕ → ℕ → Vec) (l : LayerState) : ℕ → LayerState
  | 0 => l
  | i + 1 =>
      (TransformerBlock.forward a (headLS a F ps G l i) (G i)
        (callFreqs F (ps.getD i 0)) (callMask (ps.getD i 0)) [ps.getD i 0]).2

/-- Output of the first layer at the i-th call of the incremental run. -/
def headOut (a : ModelArgs) (F : ℕ → ℕ → ℂ) (ps : List ℕ)
    (G : ℕ → ℕ → ℕ → Vec) (l : LayerState) (i : ℕ) : ℕ → ℕ → Vec :=
  (TransformerBlock.forward a (headLS a F ps G l i) (G i)
    (callFreqs F (ps.getD i 0)) (callMask (ps.getD i 0)) [ps.getD i 0]).1

/-! Transformer-level assembly for claim C1. -/

/-- Per-call input hidden of the incremental run: call i embeds token column
i of the full token matrix. -/
def seqG (w : TransformerWeights) (tokens : ℕ → ℕ → ℕ) : ℕ → ℕ → ℕ → Vec :=
  fun i b _ => w.tok_embeddings (tokens b i)

/-- Transformer state after i single-position calls of the incremental run. -/
def stateAt (a : ModelArgs) (w : TransformerWeights) (ps : List ℕ)
    (tokens : ℕ → ℕ → ℕ) (i : ℕ) : TransformerState :=
  { Transformer.mkState a w with
    layers := seqLS a (freqsCisTable (headDim a)) ps (seqG w tokens)
      (Transformer.mkState a w).layers i }

/-- Logits row produced by the i-th single-position call. -/
def seqLogit (a : ModelArgs) (w : TransformerWeights) (ps : List ℕ)
    (tokens : ℕ → ℕ → ℕ) (j : ℕ) : ℕ → Vec :=
  fun b => linApply w.outputW a.dim (rmsnorm a.dim a.norm_eps w.normW
    (seqHout a (freqsCisTable (headDim a)) ps (seqG w tokens)
      (Transformer.mkState a w).layers j b 0))

/-! Basic lemmas about the EReal exponential and the causal mask. -/

lemma expE_bot : expE ⊥ = 0 := by simp [expE]

lemma expE_coe (r : ℝ) : expE (r : EReal) = Real.exp r := by
  simp [expE, EReal.coe_ne_bot, EReal.toReal_coe]

lemma expE_nonneg (x : EReal) : 0 ≤ expE x := by
  rw [expE]
  split
  · exact le_refl 0
  · exact (Real.exp_pos _).le

lemma expE_coe_pos (r : ℝ) : 0 < expE (r : EReal) := by
  rw [expE_coe]; exact Real.exp_pos r

lemma maskInit_of_le {i j : ℕ} (h : j ≤ i) : maskInit i j = 0 := by
  rw [maskInit, if_neg (by omega)]

lemma maskInit_of_gt {i j : ℕ} (h : i < j) : maskInit i j = ⊥ := by
  rw [maskInit, if_pos (by omega)]

/-! Lemmas about index_copy: positions outside the index list are untouched,
and with distinct indexes the position listed at slot j receives source row j. -/

lemma indexCopyAux_not_mem (src : ℕ → ℕ → ℕ → ℕ → ℝ) :
    ∀ (l : List ℕ) (n : ℕ) (c : Cache) (b q h d : ℕ), q ∉ l →
      indexCopyAux src l n c b q h d = c b q h d := by
  intro l
  induction l with
  | nil => intro n c b q h d _; rfl
  | cons p rest ih =>
      intro n c b q h d hq
      rw [indexCopyAux, ih _ _ _ _ _ _ (fun hm => hq (List.mem_cons_of_mem _ hm))]
      have hqp : q ≠ p := fun he => hq (he ▸ List.mem_cons_self p rest)
      rw [writeOne, if_neg hqp]

lemma indexCopyAux_getD (src : ℕ → ℕ → ℕ → ℕ → ℝ) :
    ∀ (l : List ℕ) (j n : ℕ) (c : Cache) (b h d : ℕ), l.Nodup → j < l.length →
      indexCopyAux src l n c b (l.getD j 0) h d = src b (n + j) h d := by
  intro l
  induction l with
  | nil => intro j n c b h d _ hj; exact absurd hj (by simp)
  | cons p rest ih =>
      intro j n c b h d hnd hj
      match j with
      | 0 =>
          rw [List.getD_cons_zero, indexCopyAux,
            indexCopyAux_not_mem src rest _ _ _ _ _ _ (List.nodup_cons.mp hnd).1]
          rw [writeOne, if_pos rfl, Nat.add_zero]
      | j' + 1 =>
          rw [List.getD_cons_succ, indexCopyAux,
            ih _ _ _ _ _ _ (List.nodup_cons.mp hnd).2 (by simpa using hj)]
          congr 1
          omega

lemma indexCopy_not_mem (c : Cache) (idx : List ℕ) (src : ℕ → ℕ → ℕ → ℕ → ℝ)
    (b q h d : ℕ) (hq : q ∉ idx) : indexCopy c idx src b q h d = c b q h d :=
  indexCopyAux_not_mem src idx 0 c b q h d hq

lemma indexCopy_getD (c : Cache) (idx : List ℕ) (src : ℕ → ℕ → ℕ → ℕ → ℝ)
    (b h d : ℕ) (hnd : idx.Nodup) (j : ℕ) (hj : j < idx.length) :
    indexCopy c idx src b (idx.getD j 0) h d = src b j h d := by
  rw [indexCopy, indexCopyAux_getD src idx j 0 c b h d hnd hj, Nat.zero_add]

lemma indexCopy_singleton (c : Cache) (p : ℕ) (src : ℕ → ℕ → ℕ → ℕ → ℝ) :
    indexCopy c [p] src = writeOne c p (fun b h d => src b 0 h d) := rfl

lemma pythonInt_of_nonneg {q : ℚ} (h : 0 ≤ q) : pythonInt q = ⌊q⌋ := by
  rw [pythonInt, if_pos h]

/-- Claim C5, counterexample: for dim = 4 (hidden argument 16) the source
truncates int(32/3) to 10 while the claim's procedure rounds 32/3 to 11, so
(with multiple_of = 1, no multiplier) the hidden dimensions differ: the code
yields 10, the claim's procedure 11. -/
theorem claim_C5_counterexample :
    ffnHiddenDim (4 * 4) 1 none ≠ ffnHiddenDimSpec (4 * 4) 1 none := by
  have h1 : ffnHiddenDim (4 * 4) 1 none = 10 := by
    show (1 : ℤ) * Int.fdiv (pythonInt (2 * ((4 * 4 : ℤ) : ℚ) / 3) + 1 - 1) 1 = 10
    rw [pythonInt_of_nonneg (by norm_num)]
    have hf : ⌊2 * ((4 * 4 : ℤ) : ℚ) / 3⌋ = 10 := by norm_num
    rw [hf]
    decide
  have h2 : ffnHiddenDimSpec (4 * 4) 1 none = 11 := by
    show (1 : ℤ) * Int.fdiv (round (2 * ((4 * 4 : ℤ) : ℚ) / 3) + 1 - 1) 1 = 11
    have hr : round (2 * ((4 * 4 : ℤ) : ℚ) / 3) = 11 := by
      rw [round_eq]; norm_num
    rw [hr]
    decide
  rw [h1, h2]
  decide

/-- Claim C5, amended: the FeedForward hidden dimension follows the claimed
procedure with int() truncation toward zero (equivalently, floor, all
intermediate values being nonnegative) in place of round: start at the given
hidden budget (the caller passes 4 x dim), replace it by floor(hidden * 2/3),
then by floor(multiplier * hidden) when a multiplier is configured, and
finally round up to the nearest multiple of multiple_of. -/
theorem claim_C5_amended :
    (∀ (hidden : ℤ) (mo : ℕ), 0 ≤ hidden →
      ffnHiddenDim hidden mo none =
        (mo : ℤ) * Int.fdiv (⌊2 * (hidden : ℚ) / 3⌋ + mo - 1) mo) ∧
    (∀ (hidden : ℤ) (mo : ℕ) (mult : ℚ), 0 ≤ hidden → 0 ≤ mult →
      ffnHiddenDim hidden mo (some mult) =
        (mo : ℤ) * Int.fdiv (⌊mult * (⌊2 * (hidden : ℚ) / 3⌋ : ℚ)⌋ + mo - 1) mo) := by
  constructor
  · intro hidden mo hh
    show (mo : ℤ) * Int.fdiv (pythonInt (2 * (hidden : ℚ) / 3) + mo - 1) mo = _
    rw [pythonInt_of_nonneg (by positivity)]
  · intro hidden mo mult hh hm
    show (mo : ℤ) * Int.fdiv
        (pythonInt (mult * (pythonInt (2 * (hidden : ℚ) / 3) : ℚ)) + mo - 1) mo = _
    rw [pythonInt_of_nonneg (q := 2 * (hidden : ℚ) / 3) (by positivity)]
    rw [pythonInt_of_nonneg]
    apply mul_nonneg hm
    have : (0 : ℤ) ≤ ⌊2 * (hidden : ℚ) / 3⌋ := Int.floor_nonneg.mpr (by positivity)
    exact_mod_cast this

/-- Witness for claim C5's amended theorem at hidden = 16, multiple_of = 256,
multiplier 13/10. -/
theorem claim_C5_amended_witness :
    (0 : ℤ) ≤ 16 ∧ (0 : ℚ) ≤ 13 / 10 ∧
    ffnHiddenDim 16 256 (some (13 / 10)) =
      (256 : ℤ) * Int.fdiv (⌊(13 / 10 : ℚ) * (⌊2 * ((16 : ℤ) : ℚ) / 3⌋ : ℚ)⌋ + 256 - 1) 256 :=
  ⟨by norm_num, by norm_num,
    claim_C5_amended.2 16 256 (13 / 10) (by norm_num) (by norm_num)⟩

/-- Claim C7: Transformer.forward fails (returns no result) exactly when the
batch dimension differs from the configured max_batch_size, and produces a
result exactly when they are equal. -/
theorem claim_C7_batch_size_check (st : TransformerState) (bsz n : ℕ)
    (tokens : ℕ → ℕ → ℕ) (idx : List ℕ) (oi : Option ℕ) :
    (Transformer.forward st bsz n tokens idx oi = none ↔
      bsz ≠ st.params.max_batch_size) ∧
    ((∃ r, Transformer.forward st bsz n tokens idx oi = some r) ↔
      bsz = st.params.max_batch_size) := by
  by_cases hb : bsz = st.params.max_batch_size
  · constructor
    · rw [Transformer.forward, if_pos hb]
      match oi with
      | some o => simp [hb]
      | none => simp [hb]
    · rw [Transformer.forward, if_pos hb]
      match oi with
      | some o => exact ⟨fun _ => hb, fun _ => ⟨_, rfl⟩⟩
      | none => exact ⟨fun _ => hb, fun _ => ⟨_, rfl⟩⟩
  · rw [Transformer.forward, if_neg hb]
    simp [hb]

/-- Claim C9, counterexample: a Transformer is constructed (at world size 1)
for a configuration with dim = 3 and n_heads = 2, so construction does not
guarantee that the embedding dimension is divisible by the number of heads. -/
theorem claim_C9_counterexample :
    (∃ st, Transformer.construct cArgsC9 1 zeroTW = some st) ∧
    ¬ cArgsC9.dim % cArgsC9.n_heads = 0 := by
  have hok : constructOk cArgsC9 1 :=
    ⟨by decide, Nat.mod_one _, Nat.mod_one _, Nat.mod_one _, Nat.mod_one _,
      Nat.mod_one _, Nat.mod_one _, Nat.mod_one _, by decide, by decide,
      by decide, by decide⟩
  exact ⟨⟨Transformer.mkState cArgsC9 zeroTW, by rw [Transformer.construct, if_pos hok]⟩,
    by decide⟩

/-- Claim C9, amended: construction does not enforce the claimed invariants —
at world size 1 a Transformer is constructed for a configuration that
violates all three at once (embedding dimension 4 not divisible by head
count 3, head count 3 not divisible by kv-head count 2, vocabulary size 0
not positive).  The invariants are caller obligations, not construction-time
guarantees. -/
theorem claim_C9_amended :
    (∃ st, Transformer.construct cArgsC9b 1 zeroTW = some st) ∧
    ¬ cArgsC9b.dim % cArgsC9b.n_heads = 0 ∧
    ¬ cArgsC9b.n_heads % nKVHeads cArgsC9b = 0 ∧
    ¬ 0 < cArgsC9b.vocab_size := by
  have hok : constructOk cArgsC9b 1 :=
    ⟨by decide, Nat.mod_one _, Nat.mod_one _, Nat.mod_one _, Nat.mod_one _,
      Nat.mod_one _, Nat.mod_one _, Nat.mod_one _, by decide, by decide,
      by decide, by decide⟩
  exact ⟨⟨Transformer.mkState cArgsC9b zeroTW,
      by rw [Transformer.construct, if_pos hok]⟩,
    by decide, by decide, by decide⟩

/-- Claim C4: the precomputed causal mask (the mask buffer every constructed
Transformer registers) is 0 at key positions j at or before the query
position i and bottom (negative infinity) strictly after it, and every
attention weight at a key position strictly after the query's absolute
position p (whose mask row the forward pass selects) is exactly 0 after
softmax. -/
theorem claim_C4_causal_mask :
    (∀ i j : ℕ, (j ≤ i → maskInit i j = 0) ∧ (i < j → maskInit i j = ⊥)) ∧
    (∀ (a : ModelArgs) (w : TransformerWeights),
      (Transformer.mkState a w).mask = maskInit) ∧
    (∀ (a : ModelArgs) (aw : AttnWeights) (xr : Vec) (c : ℕ → ℂ) (keys : Cache)
      (m : ℕ → EReal) (p b h j : ℕ), (∀ j2, m j2 = maskInit p j2) → p < j →
      attnSoftmaxRow a aw xr c keys m b h j = 0) := by
  refine ⟨fun i j => ⟨fun h => maskInit_of_le h, fun h => maskInit_of_gt h⟩,
    fun a w => rfl, fun a aw xr c keys m p b h j hm hj => ?_⟩
  rw [attnSoftmaxRow, attnScoresMRow, hm j, maskInit_of_gt hj, EReal.add_bot,
    expE_bot, zero_div]

/-- Witness for claim C4 at i = 1, j = 2 and a concrete attention instance. -/
theorem claim_C4_witness :
    maskInit 1 2 = ⊥ ∧
    attnSoftmaxRow testArgs zeroAW (fun _ => 0) (fun _ => 1) zeroCache
      (fun j => maskInit 0 j) 0 0 1 = 0 :=
  ⟨(claim_C4_causal_mask.1 1 2).2 (by norm_num),
    claim_C4_causal_mask.2.2 testArgs zeroAW (fun _ => 0) (fun _ => 1) zeroCache
      (fun j => maskInit 0 j) 0 0 0 1 (fun _ => rfl) (by norm_num)⟩

lemma applyRotaryRow_zero (c : ℕ → ℂ) : applyRotaryRow c (fun _ => 0) = fun _ => 0 := by
  funext d
  have hv : vecC (fun _ => 0) (d / 2) = 0 := by
    rw [vecC]
    simp [Complex.ext_iff]
  rw [applyRotaryRow, hv, zero_mul]
  split <;> simp

lemma fwdC3_qrot (h d : ℕ) : attnQrot testArgs cW3 (xC3 0 0) (fC3 0) h d = 0 := by
  rw [attnQrot]
  have hx : attnXq testArgs cW3 (xC3 0 0) h = fun _ => 0 := by
    funext d2
    rw [attnXq]
    simp [linApply, cW3]
  rw [hx, applyRotaryRow_zero]

lemma fwdC3_scores (j : ℕ) :
    attnScoresRow testArgs cW3 (xC3 0 0) (fC3 0) fwdC3.2.1 0 0 j = 0 := by
  rw [attnScoresRow, Finset.sum_eq_zero (fun d _ => by rw [fwdC3_qrot, zero_mul])]
  exact zero_div _

lemma fwdC3_scoresM {j : ℕ} (hj : j ≤ 1) :
    attnScoresMRow testArgs cW3 (xC3 0 0) (fC3 0) fwdC3.2.1 (mC3 0) 0 0 j =
      ((0 : ℝ) : EReal) := by
  rw [attnScoresMRow, fwdC3_scores]
  show _ + maskInit 1 j = _
  rw [maskInit_of_le hj, add_zero]

lemma fwdC3_cacheV_zero : fwdC3.2.2 0 0 0 0 = 0 := by
  show indexCopy zeroCache [1]
      (fun b i h d => attnXv testArgs cW3 (xC3 b i) h d) 0 0 0 0 = 0
  rw [indexCopy_singleton, writeOne, if_neg (by decide)]
  rfl

lemma fwdC3_cacheV_one : fwdC3.2.2 0 1 0 0 = 1 := by
  show indexCopy zeroCache [1]
      (fun b i h d => attnXv testArgs cW3 (xC3 b i) h d) 0 1 0 0 = 1
  rw [indexCopy_singleton, writeOne, if_pos rfl]
  show attnXv testArgs cW3 (xC3 0 0) 0 0 = 1
  rw [attnXv]
  show linApply cW3.wv testArgs.dim (xC3 0 0) (0 * headDim testArgs + 0) = 1
  rw [linApply]
  show ∑ k ∈ Finset.range 2, cW3.wv 0 k * xC3 0 0 k = 1
  rw [Finset.sum_range_succ, Finset.sum_range_succ, Finset.sum_range_zero]
  norm_num [cW3, idMat, xC3]

lemma fwdC3_denom :
    attnDenom testArgs cW3 (xC3 0 0) (fC3 0) fwdC3.2.1 (mC3 0) 0 0 = 2 := by
  rw [attnDenom]
  show ∑ j ∈ Finset.range 2, _ = 2
  rw [Finset.sum_range_succ, Finset.sum_range_succ, Finset.sum_range_zero,
    fwdC3_scoresM (by norm_num), fwdC3_scoresM (by norm_num), expE_coe,
    Real.exp_zero]
  norm_num

lemma fwdC3_soft {j : ℕ} (hj : j ≤ 1) :
    attnSoftmaxRow testArgs cW3 (xC3 0 0) (fC3 0) fwdC3.2.1 (mC3 0) 0 0 j = 1 / 2 := by
  rw [attnSoftmaxRow, fwdC3_scoresM hj, fwdC3_denom, expE_coe, Real.exp_zero]

/-- Claim C3, counterexample: in a forward call on fresh caches with
input_indexes = [1] (query at absolute position 1), the attention output
computed by the source over the entire key axis differs from the same
computation restricted to the written position set, because the never-written
slot 0 lies at or before the query position, scores 0 against the zero cache,
and receives softmax weight 1/2 instead of 0 — it does participate in the
score computation. -/
theorem claim_C3_counterexample :
    attnOutRow testArgs cW3 (xC3 0 0) (fC3 0) fwdC3.2.1 fwdC3.2.2 (mC3 0) 0 0 ≠
      attnOutRowOn {1} testArgs cW3 (xC3 0 0) (fC3 0) fwdC3.2.1 fwdC3.2.2
        (mC3 0) 0 0 := by
  have hrep : repeatKV fwdC3.2.2 (nRep testArgs) = fwdC3.2.2 := rfl
  have hLHS : attnOutRow testArgs cW3 (xC3 0 0) (fC3 0) fwdC3.2.1 fwdC3.2.2
      (mC3 0) 0 0 = 1 / 2 := by
    rw [attnOutRow]
    simp only [Nat.zero_div, Nat.zero_mod]
    show ∑ j ∈ Finset.range 2, _ = 1 / 2
    rw [Finset.sum_range_succ, Finset.sum_range_succ, Finset.sum_range_zero,
      fwdC3_soft (by norm_num), fwdC3_soft (by norm_num), hrep,
      fwdC3_cacheV_zero, fwdC3_cacheV_one]
    norm_num
  have hRHS : attnOutRowOn {1} testArgs cW3 (xC3 0 0) (fC3 0) fwdC3.2.1 fwdC3.2.2
      (mC3 0) 0 0 = 1 := by
    rw [attnOutRowOn]
    simp only [Nat.zero_div, Nat.zero_mod]
    rw [Finset.sum_singleton, attnSoftmaxRowOn, attnDenomOn, Finset.sum_singleton,
      fwdC3_scoresM (by norm_num), expE_coe, Real.exp_zero, hrep, fwdC3_cacheV_one]
    norm_num
  rw [hLHS, hRHS]
  norm_num

/-- Claim C3, amended: after this call's writes, the key positions entering
the score computation are all max_seq_len cache slots; the softmax gives
weight exactly 0 to every position strictly after the query's absolute
position p and strictly positive weight to every position at or before p —
written or not.  In particular a never-written slot at or before p (zero
keys, zero values) receives positive weight and so participates in the
normalisation, although its contribution to the value sum is zero. -/
theorem claim_C3_amended (a : ModelArgs) (aw : AttnWeights) (xr : Vec)
    (c : ℕ → ℂ) (keys : Cache) (m : ℕ → EReal) (p b h : ℕ)
    (hm : ∀ j, m j = maskInit p j) (hp : p < a.max_seq_len) :
    (∀ j, p < j → attnSoftmaxRow a aw xr c keys m b h j = 0) ∧
    (∀ j, j ≤ p → 0 < attnSoftmaxRow a aw xr c keys m b h j) := by
  constructor
  · intro j hj
    rw [attnSoftmaxRow, attnScoresMRow, hm j, maskInit_of_gt hj, EReal.add_bot,
      expE_bot, zero_div]
  · intro j hj
    rw [attnSoftmaxRow]
    have hnum : ∀ j2, j2 ≤ p →
        expE (attnScoresMRow a aw xr c keys m b h j2) =
          Real.exp (attnScoresRow a aw xr c keys b h j2) := by
      intro j2 hj2
      rw [attnScoresMRow, hm j2, maskInit_of_le hj2, add_zero, expE_coe]
    apply div_pos
    · rw [hnum j hj]; exact Real.exp_pos _
    · rw [attnDenom]
      refine Finset.sum_pos' (fun j2 _ => expE_nonneg _) ?_
      refine ⟨j, Finset.mem_range.mpr (lt_of_le_of_lt hj hp), ?_⟩
      rw [hnum j hj]
      exact Real.exp_pos _

/-- Witness for claim C3's amended theorem: query position 1 in the two-slot
configuration; position 0 gets positive weight, position 2 gets weight 0. -/
theorem claim_C3_amended_witness :
    0 < attnSoftmaxRow testArgs zeroAW (fun _ => 0) (fun _ => 1) zeroCache
        (fun j => maskInit 1 j) 0 0 0 ∧
    attnSoftmaxRow testArgs zeroAW (fun _ => 0) (fun _ => 1) zeroCache
        (fun j => maskInit 1 j) 0 0 2 = 0 :=
  ⟨(claim_C3_amended testArgs zeroAW (fun _ => 0) (fun _ => 1) zeroCache
      (fun j => maskInit 1 j) 1 0 0 (fun _ => rfl) (by decide)).2 0 (by norm_num),
   (claim_C3_amended testArgs zeroAW (fun _ => 0) (fun _ => 1) zeroCache
      (fun j => maskInit 1 j) 1 0 0 (fun _ => rfl) (by decide)).1 2 (by norm_num)⟩

/-- Claim C2: each Attention instance is constructed with zero-filled caches
(the layers of a freshly built Transformer all carry zeroCache buffers of
shape (max_batch_size, max_seq_len, n_local_kv_heads, head_dim)), and every
forward call overwrites exactly the cache entries at the sequence positions
listed in input_indexes — position listed at slot i receives this call's
rotated key row i and (unrotated) value row i — leaving both caches unchanged
at every other sequence position. -/
theorem claim_C2_cache_write_discipline (a : ModelArgs) (w : TransformerWeights)
    (aw : AttnWeights) (cK cV : Cache) (x : ℕ → ℕ → Vec) (freqs : ℕ → ℕ → ℂ)
    (mask : ℕ → ℕ → EReal) (idx : List ℕ) (hnd : idx.Nodup) :
    (∀ l ∈ (Transformer.mkState a w).layers,
      l.cacheK = zeroCache ∧ l.cacheV = zeroCache) ∧
    (∀ b p h d, p ∉ idx →
      (Attention.forward a aw cK cV x freqs mask idx).2.1 b p h d = cK b p h d ∧
      (Attention.forward a aw cK cV x freqs mask idx).2.2 b p h d = cV b p h d) ∧
    (∀ i, i < idx.length → ∀ b h d,
      (Attention.forward a aw cK cV x freqs mask idx).2.1 b (idx.getD i 0) h d =
        attnKrot a aw (x b i) (freqs i) h d ∧
      (Attention.forward a aw cK cV x freqs mask idx).2.2 b (idx.getD i 0) h d =
        attnXv a aw (x b i) h d) := by
  refine ⟨?_, ?_, ?_⟩
  · intro l hl
    rw [Transformer.mkState] at hl
    simp only [List.mem_map, List.mem_range] at hl
    obtain ⟨i, _, hi⟩ := hl
    exact ⟨by rw [← hi], by rw [← hi]⟩
  · intro b p h d hp
    exact ⟨indexCopy_not_mem _ _ _ _ _ _ _ hp, indexCopy_not_mem _ _ _ _ _ _ _ hp⟩
  · intro i hi b h d
    exact ⟨indexCopy_getD _ _ _ _ _ _ hnd i hi, indexCopy_getD _ _ _ _ _ _ hnd i hi⟩

/-- Witness for claim C2 on the concrete two-slot instance: the fresh layer's
key cache is zero-filled, a call writing position 1 leaves position 0 of the
key cache untouched, and writes its value row at position 1. -/
theorem claim_C2_witness :
    ((⟨zeroTW.layers.getD 0 defaultLW, zeroCache, zeroCache⟩ : LayerState)).cacheK
        = zeroCache ∧
    (Attention.forward testArgs cW3 zeroCache zeroCache xC3 fC3 mC3 [1]).2.1
        0 0 0 0 = zeroCache 0 0 0 0 ∧
    (Attention.forward testArgs cW3 zeroCache zeroCache xC3 fC3 mC3 [1]).2.2
        0 1 0 0 = attnXv testArgs cW3 (xC3 0 0) 0 0 := by
  have hc := claim_C2_cache_write_discipline testArgs zeroTW cW3 zeroCache
    zeroCache xC3 fC3 mC3 [1] (by decide)
  have hmem : ((⟨zeroTW.layers.getD 0 defaultLW, zeroCache, zeroCache⟩ : LayerState)) ∈
      (Transformer.mkState testArgs zeroTW).layers := by
    rw [Transformer.mkState]
    simp only [List.mem_map, List.mem_range]
    exact ⟨0, by norm_num [testArgs], rfl⟩
  refine ⟨(hc.1 _ hmem).1, (hc.2.1 0 0 0 0 (by decide)).1, ?_⟩
  exact (hc.2.2 0 (by decide) 0 0 0).2

/-! Claim C6: composing two rotary rotations equals one rotation at the
summed position. -/

lemma vecC_applyRotaryRow (c : ℕ → ℂ) (x : Vec) (i : ℕ) :
    vecC (applyRotaryRow c x) i = vecC x i * c i := by
  apply Complex.ext
  · show applyRotaryRow c x (2 * i) = (vecC x i * c i).re
    simp only [applyRotaryRow]
    rw [if_pos (show 2 * i % 2 = 0 by omega), show 2 * i / 2 = i by omega]
  · show applyRotaryRow c x (2 * i + 1) = (vecC x i * c i).im
    simp only [applyRotaryRow]
    rw [if_neg (show ¬(2 * i + 1) % 2 = 0 by omega),
      show (2 * i + 1) / 2 = i by omega]

lemma freqsCisTable_mul (hd p1 p2 i : ℕ) :
    freqsCisTable hd p1 i * freqsCisTable hd p2 i = freqsCisTable hd (p1 + p2) i := by
  rw [freqsCisTable, freqsCisTable, freqsCisTable, ← Complex.exp_add]
  congr 1
  push_cast
  ring

/-- Claim C6: for positions p1 and p2 with p1 + p2 inside the precomputed
table's range (the table built at construction covers positions up to
2 * max_seq_len), applying the rotary embedding with the row for p1 and then
with the row for p2 equals applying it once with the row for p1 + p2 — exact
equality in the real-number model, hence within any floating-point
tolerance. -/
theorem claim_C6_rotary_composition (hd maxSeq p1 p2 : ℕ)
    (_hrange : p1 + p2 < 2 * maxSeq) (x : Vec) (d : ℕ) :
    applyRotaryRow (freqsCisTable hd p2) (applyRotaryRow (freqsCisTable hd p1) x) d =
      applyRotaryRow (freqsCisTable hd (p1 + p2)) x d := by
  by_cases hd2 : d % 2 = 0
  · simp only [applyRotaryRow, if_pos hd2]
    rw [vecC_applyRotaryRow, mul_assoc, freqsCisTable_mul]
  · simp only [applyRotaryRow, if_neg hd2]
    rw [vecC_applyRotaryRow, mul_assoc, freqsCisTable_mul]

/-- Witness for claim C6 at p1 = p2 = 1 in a table of range 2 * 2. -/
theorem claim_C6_witness :
    1 + 1 < 2 * 2 ∧
    applyRotaryRow (freqsCisTable 2 1)
        (applyRotaryRow (freqsCisTable 2 1) (fun _ => 1)) 0 =
      applyRotaryRow (freqsCisTable 2 (1 + 1)) (fun _ => 1) 0 :=
  ⟨by norm_num, claim_C6_rotary_composition 2 2 1 1 (by norm_num) (fun _ => 1) 0⟩

/-! Claims C8 and C10: output selection and the forward frame property. -/

/-- Claim C8: with output_index supplied, Transformer.forward returns
single-position logits (shape (max_batch_size, vocab_size) after the
squeeze), obtained by projecting only the hidden row at window offset
output_index - input_indexes[0]; with output_index omitted it returns the
full (max_batch_size, window, vocab_size) logits covering every window
position — the single-position logits agree with the full logits at that
offset, and the cache state evolves identically. -/
theorem claim_C8_output_selection (st : TransformerState) (bsz n : ℕ)
    (tokens : ℕ → ℕ → ℕ) (idx : List ℕ) (o : ℕ)
    (hb : bsz = st.params.max_batch_size) :
    ∃ (lgS : ℕ → Vec) (lgF : ℕ → ℕ → Vec) (st2 : TransformerState),
      Transformer.forward st bsz n tokens idx (some o) =
        some (Logits.single lgS, st2) ∧
      Transformer.forward st bsz n tokens idx none =
        some (Logits.full lgF, st2) ∧
      ∀ b v, lgS b v = lgF b (o - idx.getD 0 0) v := by
  rw [Transformer.forward, Transformer.forward, if_pos hb, if_pos hb]
  exact ⟨_, _, _, rfl, rfl, fun b v => rfl⟩

/-- Witness for claim C8 on the concrete instance. -/
theorem claim_C8_witness :
    1 = testState.params.max_batch_size ∧
    ∃ (lgS : ℕ → Vec) (lgF : ℕ → ℕ → Vec) (st2 : TransformerState),
      Transformer.forward testState 1 1 (fun _ _ => 0) [0] (some 0) =
        some (Logits.single lgS, st2) ∧
      Transformer.forward testState 1 1 (fun _ _ => 0) [0] none =
        some (Logits.full lgF, st2) ∧
      ∀ b v, lgS b v = lgF b (0 - [0].getD 0 0) v :=
  ⟨rfl, claim_C8_output_selection testState 1 1 (fun _ _ => 0) [0] 0 rfl⟩

lemma runLayers_weights (a : ModelArgs) :
    ∀ (ls : List LayerState) (h : ℕ → ℕ → Vec) (freqs : ℕ → ℕ → ℂ)
      (mask : ℕ → ℕ → EReal) (idx : List ℕ),
      List.Forall₂ (fun l l2 => l2.w = l.w) ls (runLayers a ls h freqs mask idx).2 := by
  intro ls
  induction ls with
  | nil => intro h freqs mask idx; exact List.Forall₂.nil
  | cons l rest ih =>
      intro h freqs mask idx
      exact List.Forall₂.cons rfl (ih _ _ _ _)

/-- Claim C10: a Transformer.forward call mutates nothing except the
per-layer KV caches: the parameters, embedding table, final norm and output
projection weights, the precomputed freqs_cis and mask buffers, and every
layer's weights are unchanged (layer i of the new state carries the same
weight record as layer i of the old state). -/
theorem claim_C10_forward_frame (st : TransformerState) (bsz n : ℕ)
    (tokens : ℕ → ℕ → ℕ) (idx : List ℕ) (oi : Option ℕ) (lg : Logits)
    (st2 : TransformerState)
    (h : Transformer.forward st bsz n tokens idx oi = some (lg, st2)) :
    st2.params = st.params ∧ st2.tok_embeddings = st.tok_embeddings ∧
    st2.normW = st.normW ∧ st2.outputW = st.outputW ∧
    st2.freqs_cis = st.freqs_cis ∧ st2.mask = st.mask ∧
    List.Forall₂ (fun l l2 => l2.w = l.w) st.layers st2.layers := by
  by_cases hb : bsz = st.params.max_batch_size
  · cases oi with
    | some o =>
        rw [Transformer.forward, if_pos hb] at h
        injection h with h2
        injection h2 with hlg hst
        rw [← hst]
        exact ⟨rfl, rfl, rfl, rfl, rfl, rfl, runLayers_weights _ _ _ _ _ _⟩
    | none =>
        rw [Transformer.forward, if_pos hb] at h
        injection h with h2
        injection h2 with hlg hst
        rw [← hst]
        exact ⟨rfl, rfl, rfl, rfl, rfl, rfl, runLayers_weights _ _ _ _ _ _⟩
  · rw [Transformer.forward, if_neg hb] at h
    exact absurd h (by simp)

/-- Witness for claim C10 on the concrete instance: the mask buffer survives
a forward call unchanged. -/
theorem claim_C10_witness :
    ∃ (lg : Logits) (st2 : TransformerState),
      Transformer.forward testState 1 1 (fun _ _ => 0) [0] none =
        some (lg, st2) ∧ st2.mask = testState.mask := by
  refine ⟨_, _, rfl, ?_⟩
  exact (claim_C10_forward_frame testState 1 1 (fun _ _ => 0) [0] none _ _
    rfl).2.2.2.2.2.1

/-! Defining equations of the forward functions, as rewriting lemmas. -/

lemma attnForward_out (a : ModelArgs) (aw : AttnWeights) (cK cV : Cache)
    (x : ℕ → ℕ → Vec) (freqs : ℕ → ℕ → ℂ) (mask : ℕ → ℕ → EReal)
    (idx : List ℕ) (b s : ℕ) :
    (Attention.forward a aw cK cV x freqs mask idx).1 b s =
      linApply aw.wo (a.n_heads * headDim a)
        (attnOutRow a aw (x b s) (freqs s)
          (indexCopy cK idx (fun b2 i h d => attnKrot a aw (x b2 i) (freqs i) h d))
          (indexCopy cV idx (fun b2 i h d => attnXv a aw (x b2 i) h d))
          (mask s) b) := rfl

lemma attnForward_cacheK (a : ModelArgs) (aw : AttnWeights) (cK cV : Cache)
    (x : ℕ → ℕ → Vec) (freqs : ℕ → ℕ → ℂ) (mask : ℕ → ℕ → EReal)
    (idx : List ℕ) :
    (Attention.forward a aw cK cV x freqs mask idx).2.1 =
      indexCopy cK idx (fun b2 i h d => attnKrot a aw (x b2 i) (freqs i) h d) := rfl

lemma attnForward_cacheV (a : ModelArgs) (aw : AttnWeights) (cK cV : Cache)
    (x : ℕ → ℕ → Vec) (freqs : ℕ → ℕ → ℂ) (mask : ℕ → ℕ → EReal)
    (idx : List ℕ) :
    (Attention.forward a aw cK cV x freqs mask idx).2.2 =
      indexCopy cV idx (fun b2 i h d => attnXv a aw (x b2 i) h d) := rfl

lemma blockForward_out (a : ModelArgs) (l : LayerState)
    (x : ℕ → ℕ → Vec) (freqs : ℕ → ℕ → ℂ) (mask : ℕ → ℕ → EReal)
    (idx : List ℕ) (b s d : ℕ) :
    (TransformerBlock.forward a l x freqs mask idx).1 b s d =
      (x b s d +
        (Attention.forward a l.w.attn l.cacheK l.cacheV
          (fun b2 s2 => rmsnorm a.dim a.norm_eps l.w.attention_norm (x b2 s2))
          freqs mask idx).1 b s d) +
      ffnForward a.dim (ffnHiddenNat a) l.w.ffn
        (rmsnorm a.dim a.norm_eps l.w.ffn_norm
          (fun d2 => x b s d2 +
            (Attention.forward a l.w.attn l.cacheK l.cacheV
              (fun b2 s2 => rmsnorm a.dim a.norm_eps l.w.attention_norm (x b2 s2))
              freqs mask idx).1 b s d2)) d := rfl

lemma blockForward_cacheK (a : ModelArgs) (l : LayerState)
    (x : ℕ → ℕ → Vec) (freqs : ℕ → ℕ → ℂ) (mask : ℕ → ℕ → EReal)
    (idx : List ℕ) :
    ((TransformerBlock.forward a l x freqs mask idx).2).cacheK =
      (Attention.forward a l.w.attn l.cacheK l.cacheV
        (fun b2 s2 => rmsnorm a.dim a.norm_eps l.w.attention_norm (x b2 s2))
        freqs mask idx).2.1 := rfl

lemma blockForward_cacheV (a : ModelArgs) (l : LayerState)
    (x : ℕ → ℕ → Vec) (freqs : ℕ → ℕ → ℂ) (mask : ℕ → ℕ → EReal)
    (idx : List ℕ) :
    ((TransformerBlock.forward a l x freqs mask idx).2).cacheV =
      (Attention.forward a l.w.attn l.cacheK l.cacheV
        (fun b2 s2 => rmsnorm a.dim a.norm_eps l.w.attention_norm (x b2 s2))
        freqs mask idx).2.2 := rfl

lemma blockForward_w (a : ModelArgs) (l : LayerState)
    (x : ℕ → ℕ → Vec) (freqs : ℕ → ℕ → ℂ) (mask : ℕ → ℕ → EReal)
    (idx : List ℕ) :
    ((TransformerBlock.forward a l x freqs mask idx).2).w = l.w := rfl

lemma runLayers_nil (a : ModelArgs) (h : ℕ → ℕ → Vec) (freqs : ℕ → ℕ → ℂ)
    (mask : ℕ → ℕ → EReal) (idx : List ℕ) :
    runLayers a [] h freqs mask idx = (h, []) := rfl

lemma runLayers_cons (a : ModelArgs) (l : LayerState) (rest : List LayerState)
    (h : ℕ → ℕ → Vec) (freqs : ℕ → ℕ → ℂ) (mask : ℕ → ℕ → EReal)
    (idx : List ℕ) :
    runLayers a (l :: rest) h freqs mask idx =
      ((runLayers a rest (TransformerBlock.forward a l h freqs mask idx).1
          freqs mask idx).1,
        (TransformerBlock.forward a l h freqs mask idx).2 ::
          (runLayers a rest (TransformerBlock.forward a l h freqs mask idx).1
            freqs mask idx).2) := rfl

/-! Lemmas about the sequentially written caches. -/

lemma seqWrites_not_hit (src : ℕ → ℕ → ℕ → ℕ → ℝ) (ps : List ℕ) :
    ∀ (k q : ℕ), (∀ m, m < k → ps.getD m 0 ≠ q) → ∀ b h d,
      seqWrites src ps k b q h d = 0 := by
  intro k
  induction k with
  | zero => intro q _ b h d; rfl
  | succ k ih =>
      intro q hq b h d
      show indexCopy (seqWrites src ps k) [ps.getD k 0]
        (fun b2 _ h2 d2 => src b2 k h2 d2) b q h d = 0
      rw [indexCopy_singleton]
      simp only [writeOne]
      rw [if_neg (fun he => hq k (by omega) he.symm)]
      exact ih q (fun m hm => hq m (by omega)) b h d

lemma seqWrites_hit (src : ℕ → ℕ → ℕ → ℕ → ℝ) (ps : List ℕ) (j : ℕ)
    (hne : ∀ m, j < m → m < ps.length → ps.getD m 0 ≠ ps.getD j 0) :
    ∀ k, j < k → k ≤ ps.length → ∀ b h d,
      seqWrites src ps k b (ps.getD j 0) h d = src b j h d := by
  intro k
  induction k with
  | zero => intro hjk; omega
  | succ k ih =>
      intro hjk hk b h d
      show indexCopy (seqWrites src ps k) [ps.getD k 0]
        (fun b2 _ h2 d2 => src b2 k h2 d2) b (ps.getD j 0) h d = _
      rw [indexCopy_singleton]
      simp only [writeOne]
      by_cases he : j = k
      · rw [if_pos (by rw [he])]
        rw [he]
      · have hlt : j < k := by omega
        rw [if_neg (fun h2 => hne k hlt (by omega) h2.symm)]
        exact ih hlt (by omega) b h d

lemma getD_lt_getD (ps : List ℕ) (pw : List.Pairwise (· < ·) ps) {i j : ℕ}
    (hij : i < j) (hj : j < ps.length) : ps.getD i 0 < ps.getD j 0 := by
  rw [List.getD_eq_getElem _ _ (lt_trans hij hj), List.getD_eq_getElem _ _ hj]
  exact List.pairwise_iff_getElem.mp pw i j _ _ hij

/-- Agreement of the incrementally written cache with the batch-written one:
after the call writing ps_i, the two agree at every position at or before
ps_i (written positions among ps_0..ps_i carry the same source rows; earlier
never-written positions are zero in both). -/
lemma seqWrites_agree (ps : List ℕ) (hps : List.Chain' (· < ·) ps)
    (src : ℕ → ℕ → ℕ → ℕ → ℝ) :
    ∀ i, i < ps.length → ∀ q, q ≤ ps.getD i 0 → ∀ b h d,
      seqWrites src ps (i + 1) b q h d = indexCopy zeroCache ps src b q h d := by
  have pw : List.Pairwise (· < ·) ps := List.chain'_iff_pairwise.mp hps
  have hnd : ps.Nodup := pw.imp (fun hab => Nat.ne_of_lt hab)
  intro i hi q hq b h d
  by_cases hmem : ∃ j, ∃ _ : j < ps.length, ps.getD j 0 = q
  · obtain ⟨j, hj, hjq⟩ := hmem
    have hji : j ≤ i := by
      by_contra hc
      have := getD_lt_getD ps pw (show i < j by omega) hj
      omega
    have hne : ∀ m, j < m → m < ps.length → ps.getD m 0 ≠ ps.getD j 0 := by
      intro m hm hml he
      have := getD_lt_getD ps pw hm hml
      omega
    rw [← hjq, seqWrites_hit src ps j hne (i + 1) (by omega) (by omega) b h d,
      indexCopy_getD _ _ _ _ _ _ hnd j hj]
  · have hq2 : q ∉ ps := by
      intro hin
      rcases List.mem_iff_getElem.mp hin with ⟨j, hj, hje⟩
      exact hmem ⟨j, hj, by rw [List.getD_eq_getElem _ _ hj, hje]⟩
    rw [indexCopy_not_mem _ _ _ _ _ _ _ hq2]
    exact seqWrites_not_hit src ps (i + 1) q
      (fun m hm he => hmem ⟨m, by omega, he⟩) b h d

/-! Locality of attention: two runs whose caches agree at every position at
or before the query's absolute position p produce identical attention rows,
because the causal mask zeroes every softmax weight strictly after p. -/

lemma repeatKV_apply (x : Cache) (nrep b s h d : ℕ) :
    repeatKV x nrep b s h d = x b s (h / nrep) d := by
  rw [repeatKV]
  split
  · rename_i h1
    rw [h1, Nat.div_one]
  · rfl

lemma attnScoresRow_congr (a : ModelArgs) (aw : AttnWeights) (xr : Vec)
    (c : ℕ → ℂ) (K1 K2 : Cache) (b h j : ℕ)
    (hK : ∀ h2 d, K1 b j h2 d = K2 b j h2 d) :
    attnScoresRow a aw xr c K1 b h j = attnScoresRow a aw xr c K2 b h j := by
  rw [attnScoresRow, attnScoresRow]
  congr 1
  apply Finset.sum_congr rfl
  intro d _
  rw [repeatKV_apply, repeatKV_apply, hK]

lemma attnSoftmaxRow_zero (a : ModelArgs) (aw : AttnWeights) (xr : Vec)
    (c : ℕ → ℂ) (K : Cache) (m : ℕ → EReal) (p b h j : ℕ)
    (hm : ∀ j2, m j2 = maskInit p j2) (hj : p < j) :
    attnSoftmaxRow a aw xr c K m b h j = 0 := by
  rw [attnSoftmaxRow, attnScoresMRow, hm j, maskInit_of_gt hj, EReal.add_bot,
    expE_bot, zero_div]

lemma attnScoresMRow_congr (a : ModelArgs) (aw : AttnWeights) (xr : Vec)
    (c : ℕ → ℂ) (K1 K2 : Cache) (m1 m2 : ℕ → EReal) (p b h j : ℕ)
    (hm1 : ∀ j2, m1 j2 = maskInit p j2) (hm2 : ∀ j2, m2 j2 = maskInit p j2)
    (hK : ∀ q, q ≤ p → ∀ h2 d, K1 b q h2 d = K2 b q h2 d) :
    attnScoresMRow a aw xr c K1 m1 b h j = attnScoresMRow a aw xr c K2 m2 b h j := by
  rcases le_or_lt j p with hj | hj
  · rw [attnScoresMRow, attnScoresMRow, hm1 j, hm2 j,
      attnScoresRow_congr a aw xr c K1 K2 b h j (hK j hj)]
  · rw [attnScoresMRow, attnScoresMRow, hm1 j, hm2 j, maskInit_of_gt hj,
      EReal.add_bot, EReal.add_bot]

lemma attnDenom_congr (a : ModelArgs) (aw : AttnWeights) (xr : Vec)
    (c : ℕ → ℂ) (K1 K2 : Cache) (m1 m2 : ℕ → EReal) (p b h : ℕ)
    (hm1 : ∀ j2, m1 j2 = maskInit p j2) (hm2 : ∀ j2, m2 j2 = maskInit p j2)
    (hK : ∀ q, q ≤ p → ∀ h2 d, K1 b q h2 d = K2 b q h2 d) :
    attnDenom a aw xr c K1 m1 b h = attnDenom a aw xr c K2 m2 b h := by
  rw [attnDenom, attnDenom]
  apply Finset.sum_congr rfl
  intro j _
  rw [attnScoresMRow_congr a aw xr c K1 K2 m1 m2 p b h j hm1 hm2 hK]

lemma attnSoftmaxRow_congr (a : ModelArgs) (aw : AttnWeights) (xr : Vec)
    (c : ℕ → ℂ) (K1 K2 : Cache) (m1 m2 : ℕ → EReal) (p b h j : ℕ)
    (hm1 : ∀ j2, m1 j2 = maskInit p j2) (hm2 : ∀ j2, m2 j2 = maskInit p j2)
    (hK : ∀ q, q ≤ p → ∀ h2 d, K1 b q h2 d = K2 b q h2 d) :
    attnSoftmaxRow a aw xr c K1 m1 b h j = attnSoftmaxRow a aw xr c K2 m2 b h j := by
  rw [attnSoftmaxRow, attnSoftmaxRow,
    attnScoresMRow_congr a aw xr c K1 K2 m1 m2 p b h j hm1 hm2 hK,
    attnDenom_congr a aw xr c K1 K2 m1 m2 p b h hm1 hm2 hK]

lemma attnOutRow_congr (a : ModelArgs) (aw : AttnWeights) (xr : Vec)
    (c : ℕ → ℂ) (K1 V1 K2 V2 : Cache) (m1 m2 : ℕ → EReal) (p b : ℕ)
    (hm1 : ∀ j2, m1 j2 = maskInit p j2) (hm2 : ∀ j2, m2 j2 = maskInit p j2)
    (hK : ∀ q, q ≤ p → ∀ h2 d, K1 b q h2 d = K2 b q h2 d)
    (hV : ∀ q, q ≤ p → ∀ h2 d, V1 b q h2 d = V2 b q h2 d) (e : ℕ) :
    attnOutRow a aw xr c K1 V1 m1 b e = attnOutRow a aw xr c K2 V2 m2 b e := by
  rw [attnOutRow, attnOutRow]
  apply Finset.sum_congr rfl
  intro j _
  rcases le_or_lt j p with hj | hj
  · rw [attnSoftmaxRow_congr a aw xr c K1 K2 m1 m2 p b (e / headDim a) j hm1 hm2 hK,
      repeatKV_apply, repeatKV_apply, hV j hj]
  · rw [attnSoftmaxRow_zero a aw xr c K1 m1 p b (e / headDim a) j hm1 hj,
      attnSoftmaxRow_zero a aw xr c K2 m2 p b (e / headDim a) j hm2 hj,
      zero_mul, zero_mul]

/-! Evolution of the first layer along the incremental run. -/

lemma headLS_w (a : ModelArgs) (F : ℕ → ℕ → ℂ) (ps : List ℕ)
    (G : ℕ → ℕ → ℕ → Vec) (l : LayerState) :
    ∀ i, (headLS a F ps G l i).w = l.w := by
  intro i
  induction i with
  | zero => rfl
  | succ i ih =>
      show ((TransformerBlock.forward a (headLS a F ps G l i) (G i)
        (callFreqs F (ps.getD i 0)) (callMask (ps.getD i 0)) [ps.getD i 0]).2).w = l.w
      rw [blockForward_w]
      exact ih

lemma head_cache_eq (a : ModelArgs) (F : ℕ → ℕ → ℂ) (ps : List ℕ)
    (G : ℕ → ℕ → ℕ → Vec) (l : LayerState) (H : ℕ → ℕ → Vec)
    (hK0 : l.cacheK = zeroCache) (hV0 : l.cacheV = zeroCache)
    (hG : ∀ i, i < ps.length → ∀ b, G i b 0 = H b i) :
    ∀ i, i ≤ ps.length → ∀ b q h d,
      (headLS a F ps G l i).cacheK b q h d =
        seqWrites (srcKOne a l.w F ps H) ps i b q h d ∧
      (headLS a F ps G l i).cacheV b q h d =
        seqWrites (srcVOne a l.w H) ps i b q h d := by
  intro i
  induction i with
  | zero =>
      intro _ b q h d
      constructor
      · show l.cacheK b q h d = zeroCache b q h d
        rw [hK0]
      · show l.cacheV b q h d = zeroCache b q h d
        rw [hV0]
  | succ i ih =>
      intro hi b q h d
      have hi2 : i < ps.length := by omega
      have hw := headLS_w a F ps G l i
      constructor
      · show ((TransformerBlock.forward a (headLS a F ps G l i) (G i)
          (callFreqs F (ps.getD i 0)) (callMask (ps.getD i 0))
          [ps.getD i 0]).2).cacheK b q h d = _
        rw [blockForward_cacheK, attnForward_cacheK]
        show indexCopy (headLS a F ps G l i).cacheK [ps.getD i 0] _ b q h d =
          indexCopy (seqWrites (srcKOne a l.w F ps H) ps i) [ps.getD i 0]
            (fun b2 _ h2 d2 => srcKOne a l.w F ps H b2 i h2 d2) b q h d
        rw [indexCopy_singleton, indexCopy_singleton]
        simp only [writeOne]
        by_cases hqp : q = ps.getD i 0
        · rw [if_pos hqp, if_pos hqp]
          show attnKrot a (headLS a F ps G l i).w.attn
            (rmsnorm a.dim a.norm_eps (headLS a F ps G l i).w.attention_norm
              (G i b 0)) (callFreqs F (ps.getD i 0) 0) h d = _
          rw [hw, hG i hi2 b]
          rfl
        · rw [if_neg hqp, if_neg hqp]
          exact (ih (by omega) b q h d).1
      · show ((TransformerBlock.forward a (headLS a F ps G l i) (G i)
          (callFreqs F (ps.getD i 0)) (callMask (ps.getD i 0))
          [ps.getD i 0]).2).cacheV b q h d = _
        rw [blockForward_cacheV, attnForward_cacheV]
        show indexCopy (headLS a F ps G l i).cacheV [ps.getD i 0] _ b q h d =
          indexCopy (seqWrites (srcVOne a l.w H) ps i) [ps.getD i 0]
            (fun b2 _ h2 d2 => srcVOne a l.w H b2 i h2 d2) b q h d
        rw [indexCopy_singleton, indexCopy_singleton]
        simp only [writeOne]
        by_cases hqp : q = ps.getD i 0
        · rw [if_pos hqp, if_pos hqp]
          show attnXv a (headLS a F ps G l i).w.attn
            (rmsnorm a.dim a.norm_eps (headLS a F ps G l i).w.attention_norm
              (G i b 0)) h d = _
          rw [hw, hG i hi2 b]
          rfl
        · rw [if_neg hqp, if_neg hqp]
          exact (ih (by omega) b q h d).2

lemma attnForward_out_block (a : ModelArgs) (aw : AttnWeights)
    (nw : Vec) (cK cV : Cache) (x : ℕ → ℕ → Vec) (freqs : ℕ → ℕ → ℂ)
    (mask : ℕ → ℕ → EReal) (idx : List ℕ) (b s : ℕ) :
    (Attention.forward a aw cK cV
        (fun b2 t => rmsnorm a.dim a.norm_eps nw (x b2 t)) freqs mask idx).1 b s =
      linApply aw.wo (a.n_heads * headDim a)
        (attnOutRow a aw (rmsnorm a.dim a.norm_eps nw (x b s)) (freqs s)
          (indexCopy cK idx (fun b2 i h d =>
            attnKrot a aw (rmsnorm a.dim a.norm_eps nw (x b2 i)) (freqs i) h d))
          (indexCopy cV idx (fun b2 i h d =>
            attnXv a aw (rmsnorm a.dim a.norm_eps nw (x b2 i)) h d))
          (mask s) b) := rfl

/-- Congruence for one TransformerBlock step: equal layer weights, equal input
rows and equal attention rows give equal output rows. -/
lemma blockOut_congr (a : ModelArgs) (l1 l2 : LayerState) (x1 x2 : ℕ → ℕ → Vec)
    (f1 f2 : ℕ → ℕ → ℂ) (m1 m2 : ℕ → ℕ → EReal) (idx1 idx2 : List ℕ)
    (b s1 s2 : ℕ) (hw : l1.w = l2.w) (hx : x1 b s1 = x2 b s2)
    (hattn : (Attention.forward a l1.w.attn l1.cacheK l1.cacheV
        (fun b2 t => rmsnorm a.dim a.norm_eps l1.w.attention_norm (x1 b2 t))
        f1 m1 idx1).1 b s1 =
      (Attention.forward a l2.w.attn l2.cacheK l2.cacheV
        (fun b2 t => rmsnorm a.dim a.norm_eps l2.w.attention_norm (x2 b2 t))
        f2 m2 idx2).1 b s2) :
    ∀ d, (TransformerBlock.forward a l1 x1 f1 m1 idx1).1 b s1 d =
      (TransformerBlock.forward a l2 x2 f2 m2 idx2).1 b s2 d := by
  intro d
  rw [blockForward_out, blockForward_out]
  have hrow : (fun d2 => x1 b s1 d2 +
      (Attention.forward a l1.w.attn l1.cacheK l1.cacheV
        (fun b2 t => rmsnorm a.dim a.norm_eps l1.w.attention_norm (x1 b2 t))
        f1 m1 idx1).1 b s1 d2) =
    (fun d2 => x2 b s2 d2 +
      (Attention.forward a l2.w.attn l2.cacheK l2.cacheV
        (fun b2 t => rmsnorm a.dim a.norm_eps l2.w.attention_norm (x2 b2 t))
        f2 m2 idx2).1 b s2 d2) := by
    funext d2
    rw [congrFun hattn d2, congrFun hx d2]
  rw [hrow, congrFun hattn d, congrFun hx d, hw]

/-- Core single-layer lemma: starting from zero caches, the i-th
single-position call of the incremental run produces, at its one window row,
the same first-layer output as row i of the one-call run. -/
lemma headOut_eq (a : ModelArgs) (F : ℕ → ℕ → ℂ) (ps : List ℕ)
    (hps : List.Chain' (· < ·) ps) (l : LayerState)
    (hK0 : l.cacheK = zeroCache) (hV0 : l.cacheV = zeroCache)
    (H : ℕ → ℕ → Vec) (G : ℕ → ℕ → ℕ → Vec)
    (hG : ∀ i, i < ps.length → ∀ b, G i b 0 = H b i) :
    ∀ i, i < ps.length → ∀ b d,
      headOut a F ps G l i b 0 d =
        (TransformerBlock.forward a l H (oneFreqs F ps) (oneMaskI ps) ps).1 b i d := by
  intro i hi b
  have hattn : (Attention.forward a (headLS a F ps G l i).w.attn
      (headLS a F ps G l i).cacheK (headLS a F ps G l i).cacheV
      (fun b2 t => rmsnorm a.dim a.norm_eps
        (headLS a F ps G l i).w.attention_norm (G i b2 t))
      (callFreqs F (ps.getD i 0)) (callMask (ps.getD i 0)) [ps.getD i 0]).1 b 0 =
    (Attention.forward a l.w.attn l.cacheK l.cacheV
      (fun b2 t => rmsnorm a.dim a.norm_eps l.w.attention_norm (H b2 t))
      (oneFreqs F ps) (oneMaskI ps) ps).1 b i := by
    funext d2
    rw [attnForward_out_block, attnForward_out_block,
      headLS_w a F ps G l i, hG i hi b,
      show callFreqs F (ps.getD i 0) 0 = oneFreqs F ps i from rfl]
    congr 1
    funext e
    refine attnOutRow_congr a l.w.attn _ _ _ _ _ _ _ _ (ps.getD i 0) b
      (fun j2 => rfl) (fun j2 => rfl) ?_ ?_ e
    · intro q hq h2 d3
      rw [hK0,
        show (fun b2 i2 h3 d4 => attnKrot a l.w.attn
          (rmsnorm a.dim a.norm_eps l.w.attention_norm (H b2 i2))
          (oneFreqs F ps i2) h3 d4) = srcKOne a l.w F ps H from rfl,
        ← seqWrites_agree ps hps (srcKOne a l.w F ps H) i hi q hq b h2 d3,
        show seqWrites (srcKOne a l.w F ps H) ps (i + 1) =
          indexCopy (seqWrites (srcKOne a l.w F ps H) ps i) [ps.getD i 0]
            (fun b2 _ h3 d4 => srcKOne a l.w F ps H b2 i h3 d4) from rfl,
        indexCopy_singleton, indexCopy_singleton]
      simp only [writeOne]
      by_cases hqp : q = ps.getD i 0
      · rw [if_pos hqp, if_pos hqp, hG i hi b]
        rfl
      · rw [if_neg hqp, if_neg hqp]
        exact (head_cache_eq a F ps G l H hK0 hV0 hG i (le_of_lt hi) b q h2 d3).1
    · intro q hq h2 d3
      rw [hV0,
        show (fun b2 i2 h3 d4 => attnXv a l.w.attn
          (rmsnorm a.dim a.norm_eps l.w.attention_norm (H b2 i2)) h3 d4) =
          srcVOne a l.w H from rfl,
        ← seqWrites_agree ps hps (srcVOne a l.w H) i hi q hq b h2 d3,
        show seqWrites (srcVOne a l.w H) ps (i + 1) =
          indexCopy (seqWrites (srcVOne a l.w H) ps i) [ps.getD i 0]
            (fun b2 _ h3 d4 => srcVOne a l.w H b2 i h3 d4) from rfl,
        indexCopy_singleton, indexCopy_singleton]
      simp only [writeOne]
      by_cases hqp : q = ps.getD i 0
      · rw [if_pos hqp, if_pos hqp, hG i hi b]
        rfl
      · rw [if_neg hqp, if_neg hqp]
        exact (head_cache_eq a F ps G l H hK0 hV0 hG i (le_of_lt hi) b q h2 d3).2
  exact blockOut_congr a (headLS a F ps G l i) l (G i) H
    (callFreqs F (ps.getD i 0)) (oneFreqs F ps) (callMask (ps.getD i 0))
    (oneMaskI ps) [ps.getD i 0] ps b 0 i (headLS_w a F ps G l i) (hG i hi b) hattn

lemma seqLS_nil (a : ModelArgs) (F : ℕ → ℕ → ℂ) (ps : List ℕ)
    (G : ℕ → ℕ → ℕ → Vec) : ∀ i, seqLS a F ps G [] i = [] := by
  intro i
  induction i with
  | zero => rfl
  | succ i ih =>
      show (runLayers a (seqLS a F ps G [] i) (G i) (callFreqs F (ps.getD i 0))
        (callMask (ps.getD i 0)) [ps.getD i 0]).2 = []
      rw [ih]
      rfl

lemma seqLS_cons (a : ModelArgs) (F : ℕ → ℕ → ℂ) (ps : List ℕ)
    (G : ℕ → ℕ → ℕ → Vec) (l : LayerState) (rest : List LayerState) :
    ∀ i, seqLS a F ps G (l :: rest) i =
      headLS a F ps G l i :: seqLS a F ps (headOut a F ps G l) rest i := by
  intro i
  induction i with
  | zero => rfl
  | succ i ih =>
      show (runLayers a (seqLS a F ps G (l :: rest) i) (G i)
        (callFreqs F (ps.getD i 0)) (callMask (ps.getD i 0)) [ps.getD i 0]).2 = _
      rw [ih, runLayers_cons]
      rfl

lemma seqHout_cons (a : ModelArgs) (F : ℕ → ℕ → ℂ) (ps : List ℕ)
    (G : ℕ → ℕ → ℕ → Vec) (l : LayerState) (rest : List LayerState) (i : ℕ) :
    seqHout a F ps G (l :: rest) i =
      seqHout a F ps (headOut a F ps G l) rest i := by
  show (runLayers a (seqLS a F ps G (l :: rest) i) (G i)
    (callFreqs F (ps.getD i 0)) (callMask (ps.getD i 0)) [ps.getD i 0]).1 = _
  rw [seqLS_cons, runLayers_cons]
  rfl

/-- Main induction over the layer stack: driving the stack one position at a
time (each call writing its position into every layer's cache) produces, at
each call's single window row, the same hidden output as the one-call run at
the corresponding window row. -/
lemma runLayers_incremental (a : ModelArgs) (F : ℕ → ℕ → ℂ) (ps : List ℕ)
    (hps : List.Chain' (· < ·) ps) :
    ∀ (ls : List LayerState),
      (∀ l ∈ ls, l.cacheK = zeroCache ∧ l.cacheV = zeroCache) →
      ∀ (H : ℕ → ℕ → Vec) (G : ℕ → ℕ → ℕ → Vec),
        (∀ i, i < ps.length → ∀ b, G i b 0 = H b i) →
        ∀ i, i < ps.length → ∀ b d,
          seqHout a F ps G ls i b 0 d =
            (runLayers a ls H (oneFreqs F ps) (oneMaskI ps) ps).1 b i d := by
  intro ls
  induction ls with
  | nil =>
      intro _ H G hG i hi b d
      show (runLayers a (seqLS a F ps G [] i) (G i) (callFreqs F (ps.getD i 0))
        (callMask (ps.getD i 0)) [ps.getD i 0]).1 b 0 d = _
      rw [seqLS_nil, runLayers_nil, runLayers_nil]
      exact congrFun (hG i hi b) d
  | cons l rest ih =>
      intro hz H G hG i hi b d
      rw [seqHout_cons, runLayers_cons]
      exact ih (fun l2 hl2 => hz l2 (List.mem_cons_of_mem _ hl2))
        ((TransformerBlock.forward a l H (oneFreqs F ps) (oneMaskI ps) ps).1)
        (headOut a F ps G l)
        (fun i2 hi2 b2 => funext (fun d2 =>
          headOut_eq a F ps hps l (hz l (List.mem_cons_self _ _)).1
            (hz l (List.mem_cons_self _ _)).2 H G hG i2 hi2 b2 d2))
        i hi b d

lemma mkState_layers_zero (a : ModelArgs) (w : TransformerWeights) :
    ∀ l ∈ (Transformer.mkState a w).layers,
      l.cacheK = zeroCache ∧ l.cacheV = zeroCache := by
  intro l hl
  rw [Transformer.mkState] at hl
  simp only [List.mem_map, List.mem_range] at hl
  obtain ⟨i, _, hi⟩ := hl
  exact ⟨by rw [← hi], by rw [← hi]⟩

lemma transformerForward_none_eq (st : TransformerState) (bsz n : ℕ)
    (tokens : ℕ → ℕ → ℕ) (idx : List ℕ)
    (hb : bsz = st.params.max_batch_size) :
    Transformer.forward st bsz n tokens idx none =
      some (Logits.full (fun b s => linApply st.outputW st.params.dim
          (rmsnorm st.params.dim st.params.norm_eps st.normW
            ((runLayers st.params st.layers
              (fun b2 s2 => st.tok_embeddings (tokens b2 s2))
              (fun s2 i => st.freqs_cis (idx.getD s2 0) i)
              (fun s2 j => st.mask (idx.getD s2 0) j) idx).1 b s))),
        { st with layers := (runLayers st.params st.layers
            (fun b2 s2 => st.tok_embeddings (tokens b2 s2))
            (fun s2 i => st.freqs_cis (idx.getD s2 0) i)
            (fun s2 j => st.mask (idx.getD s2 0) j) idx).2 }) := by
  rw [Transformer.forward, if_pos hb]

lemma seqRun_cons (tokens : ℕ → ℕ → ℕ) (i p : ℕ) (rest : List ℕ)
    (st : TransformerState) (v : ℕ → ℕ → Vec) (st2 : TransformerState)
    (hfwd : Transformer.forward st st.params.max_batch_size 1
      (fun b _ => tokens b i) [p] none = some (Logits.full v, st2)) :
    seqRun tokens i (p :: rest) st =
      match seqRun tokens (i + 1) rest st2 with
      | some (ls, stF) => some ((fun b => v b 0) :: ls, stF)
      | none => none := by
  show (match Transformer.forward st st.params.max_batch_size 1
      (fun b _ => tokens b i) [p] none with
    | some (Logits.full v2, st3) =>
        match seqRun tokens (i + 1) rest st3 with
        | some (ls, stF) => some ((fun b => v2 b 0) :: ls, stF)
        | none => none
    | _ => none) = _
  rw [hfwd]

lemma seqRun_spec (a : ModelArgs) (w : TransformerWeights)
    (tokens : ℕ → ℕ → ℕ) (ps : List ℕ) :
    ∀ (k i : ℕ), k + i = ps.length →
      seqRun tokens i (ps.drop i) (stateAt a w ps tokens i) =
        some ((List.range k).map (fun m => seqLogit a w ps tokens (i + m)),
          stateAt a w ps tokens ps.length) := by
  intro k
  induction k with
  | zero =>
      intro i hk
      have hi : i = ps.length := by omega
      subst hi
      rw [List.drop_length]
      rfl
  | succ k ihk =>
      intro i hk
      have hi : i < ps.length := by omega
      rw [List.drop_eq_getElem_cons hi,
        show ps[i] = ps.getD i 0 from (List.getD_eq_getElem ps 0 hi).symm]
      have hfwd : Transformer.forward (stateAt a w ps tokens i)
          ((stateAt a w ps tokens i).params.max_batch_size) 1
          (fun b _ => tokens b i) [ps.getD i 0] none =
        some (Logits.full (fun b s => linApply w.outputW a.dim
            (rmsnorm a.dim a.norm_eps w.normW
              ((runLayers a (seqLS a (freqsCisTable (headDim a)) ps
                  (seqG w tokens) (Transformer.mkState a w).layers i)
                (seqG w tokens i)
                (callFreqs (freqsCisTable (headDim a)) (ps.getD i 0))
                (callMask (ps.getD i 0)) [ps.getD i 0]).1 b s))),
          stateAt a w ps tokens (i + 1)) :=
        transformerForward_none_eq (stateAt a w ps tokens i) _ 1
          (fun b _ => tokens b i) [ps.getD i 0] rfl
      rw [seqRun_cons tokens i (ps.getD i 0) (ps.drop (i + 1))
        (stateAt a w ps tokens i) _ _ hfwd]
      rw [ihk (i + 1) (by omega)]
      show some (seqLogit a w ps tokens i ::
          (List.range k).map (fun m => seqLogit a w ps tokens (i + 1 + m)),
        stateAt a w ps tokens ps.length) = _
      rw [List.range_succ_eq_map, List.map_cons, List.map_map]
      rw [show (i + 0) = i from rfl]
      congr 2
      refine congrArg (List.cons _) ?_
      apply List.map_congr_left
      intro m _
      show seqLogit a w ps tokens (i + 1 + m) = seqLogit a w ps tokens (i + Nat.succ m)
      rw [show i + 1 + m = i + Nat.succ m by omega]

/-- Claim C1: incremental-decode equivalence.  For a freshly constructed
model (zero-filled KV caches) and a strictly increasing position list ps
whose entries lie below max_seq_len, the full logits of a single forward
call on all tokens with input_indexes = ps agree, position by position, with
the logits of successive single-token forward calls (cache carried over)
with input_indexes = [ps_i] — exact equality in the real-number model, hence
within any floating-point tolerance. -/
theorem claim_C1_incremental_decode (a : ModelArgs) (w : TransformerWeights)
    (st0 : TransformerState) (hc : Transformer.construct a 1 w = some st0)
    (ps : List ℕ) (hmono : List.Chain' (· < ·) ps)
    (_hbound : ∀ p ∈ ps, p < a.max_seq_len) (tokens : ℕ → ℕ → ℕ) :
    ∃ (lgF : ℕ → ℕ → Vec) (st1 : TransformerState)
      (lgs : List (ℕ → Vec)) (st2 : TransformerState),
      Transformer.forward st0 a.max_batch_size ps.length tokens ps none =
        some (Logits.full lgF, st1) ∧
      seqRun tokens 0 ps st0 = some (lgs, st2) ∧
      lgs.length = ps.length ∧
      ∀ i, i < ps.length → ∀ b v2,
        lgs.getD i (fun _ _ => 0) b v2 = lgF b i v2 := by
  have hst0 : st0 = Transformer.mkState a w := by
    rw [Transformer.construct] at hc
    by_cases hok : constructOk a 1
    · rw [if_pos hok] at hc
      exact (Option.some.inj hc).symm
    · rw [if_neg hok] at hc
      exact absurd hc (by simp)
  subst hst0
  refine ⟨_, _, _, _, transformerForward_none_eq _ _ _ _ _ rfl,
    seqRun_spec a w tokens ps ps.length 0 (by omega), ?_, ?_⟩
  · simp
  · intro i hi b v2
    have hlen : i < ((List.range ps.length).map
        (fun m => seqLogit a w ps tokens (0 + m))).length := by
      simpa using hi
    rw [List.getD_eq_getElem _ _ hlen]
    simp only [List.getElem_map, List.getElem_range]
    show linApply w.outputW a.dim (rmsnorm a.dim a.norm_eps w.normW
        (seqHout a (freqsCisTable (headDim a)) ps (seqG w tokens)
          (Transformer.mkState a w).layers (0 + i) b 0)) v2 =
      linApply w.outputW a.dim (rmsnorm a.dim a.norm_eps w.normW
        ((runLayers a (Transformer.mkState a w).layers
          (fun b2 s2 => w.tok_embeddings (tokens b2 s2))
          (oneFreqs (freqsCisTable (headDim a)) ps) (oneMaskI ps) ps).1 b i)) v2
    rw [Nat.zero_add]
    have hrow : seqHout a (freqsCisTable (headDim a)) ps (seqG w tokens)
        (Transformer.mkState a w).layers i b 0 =
      (runLayers a (Transformer.mkState a w).layers
        (fun b2 s2 => w.tok_embeddings (tokens b2 s2))
        (oneFreqs (freqsCisTable (headDim a)) ps) (oneMaskI ps) ps).1 b i :=
      funext (fun d => runLayers_incremental a (freqsCisTable (headDim a)) ps
        hmono (Transformer.mkState a w).layers (mkState_layers_zero a w)
        (fun b2 s2 => w.tok_embeddings (tokens b2 s2)) (seqG w tokens)
        (fun i2 hi2 b2 => rfl) i hi b d)
    rw [hrow]

/-- Witness for claim C1 on the concrete one-layer instance with a single
position. -/
theorem claim_C1_witness :
    Transformer.construct testArgs 1 zeroTW = some testState ∧
    List.Chain' (· < ·) [0] ∧ (∀ p ∈ ([0] : List ℕ), p < testArgs.max_seq_len) ∧
    ∃ (lgF : ℕ → ℕ → Vec) (st1 : TransformerState)
      (lgs : List (ℕ → Vec)) (st2 : TransformerState),
      Transformer.forward testState testArgs.max_batch_size
          ([0] : List ℕ).length (fun _ _ => 0) [0] none =
        some (Logits.full lgF, st1) ∧
      seqRun (fun _ _ => 0) 0 [0] testState = some (lgs, st2) ∧
      lgs.length = ([0] : List ℕ).length ∧
      ∀ i, i < ([0] : List ℕ).length → ∀ b v2,
        lgs.getD i (fun _ _ => 0) b v2 = lgF b i v2 := by
  have hok : constructOk testArgs 1 :=
    ⟨by decide, Nat.mod_one _, Nat.mod_one _, Nat.mod_one _, Nat.mod_one _,
      Nat.mod_one _, Nat.mod_one _, Nat.mod_one _, by decide, by decide,
      by decide, by decide⟩
  have hc : Transformer.construct testArgs 1 zeroTW = some testState := by
    rw [Transformer.construct, if_pos hok]
    rfl
  exact ⟨hc, by simp, by decide,
    claim_C1_incremental_decode testArgs zeroTW testState hc [0] (by simp)
      (by decide) (fun _ _ => 0)⟩

end LlamaSpec
